import Mathlib

/-!
Verification of the remark-shiki-highlight-api plugin core (src/index.ts):
the meta-annotation directive parser `parseMetaString` and the batch
rewrite transform returned by `remarkHighlightApi`.

The embedding works over `List Char` for the meta string.  Each JavaScript
regular-expression search (`String.prototype.match` without the global
flag) is modelled as a leftmost scan `scanFirst tryAt`, where `tryAt`
matches the specific pattern at one position.  All the patterns of the
source are of the form literal / character-class-plus / literal, for which
greedy matching with no backtracking across the class boundary is exact
(the character after a shorter class run would again be a class character,
never the required closing literal).

JavaScript `NaN` values produced by `parseInt('')` are modelled as `none`
in `Option Nat`; a line-number entry of a diff or focus list is therefore
an `Option Nat`.
-/

set_option maxRecDepth 4000

namespace RemarkShiki

/-! ## Character classes and small string utilities -/

/-- Character class `[0-9,-]` of the highlight / focus brace regexes. -/
def isHLChar (c : Char) : Bool := c.isDigit || c == ',' || c == '-'

/-- Character class `[0-9,]` of the diff regexes `\+([0-9,]+)` and `-([0-9,]+)`. -/
def isDiffChar (c : Char) : Bool := c.isDigit || c == ','

/-- Does `p` occur at the very start of `s`?  (Prefix test used to model
literal parts of the regexes.) -/
def beginsWith : List Char → List Char → Bool
  | [], _ => true
  | _ :: _, [] => false
  | p :: ps, c :: cs => p == c && beginsWith ps cs

/-- Model of JavaScript `String.prototype.includes`. -/
def containsSub : List Char → List Char → Bool
  | [], pat => pat.isEmpty
  | c :: rest, pat => beginsWith pat (c :: rest) || containsSub rest pat

/-- Model of JavaScript `String.prototype.split(sep)` on a character
separator: `''.split(sep)` is `['']`, and separators at the ends or
adjacent produce empty pieces. -/
def jsSplit (sep : Char) : List Char → List (List Char)
  | [] => [[]]
  | c :: rest =>
    match jsSplit sep rest with
    | [] => [[]]
    | g :: gs => if c == sep then [] :: g :: gs else (c :: g) :: gs

/-- Model of JavaScript `String.prototype.trim` (the captures this is
applied to never contain whitespace, so it is the identity on all
reachable inputs). -/
def trimCh (cs : List Char) : List Char :=
  ((cs.dropWhile Char.isWhitespace).reverse.dropWhile Char.isWhitespace).reverse

/-- Value of a nonempty string of decimal digits. -/
def digitsToNat (ds : List Char) : Nat :=
  ds.foldl (fun a c => a * 10 + (c.toNat - 48)) 0

/-- Model of JavaScript `parseInt(s, 10)` restricted to the inputs
reachable here (pieces of digit/comma/hyphen captures): the value of the
leading digit run, or `none` (JavaScript `NaN`) when there is none. -/
def jsParseInt (cs : List Char) : Option Nat :=
  let ds := cs.takeWhile Char.isDigit
  if ds.isEmpty then none else some (digitsToNat ds)

/-- Leftmost-match regex search: try the pattern at every position from
the left, returning the first success.  Models `String.prototype.match`
for the patterns of the source (all of which need at least one
character, so the empty suffix never matches). -/
def scanFirst (tryAt : List Char → Option α) : List Char → Option α
  | [] => none
  | c :: rest =>
    match tryAt (c :: rest) with
    | some r => some r
    | none => scanFirst tryAt rest

/-! ## The individual patterns of `parseMetaString` -/

/-- Match of `\{([0-9,-]+)\}` anchored at the current position; returns
the capture group.  The class run is greedy; the character after it must
be the closing brace. -/
def tryHighlightAt : List Char → Option (List Char)
  | [] => none
  | c :: rest =>
    if c == '\x7b' then
      let run := rest.takeWhile isHLChar
      if run.isEmpty then none
      else if (rest.drop run.length).head? == some '\x7d' then some run
      else none
    else none

/-- The flag word `showLineNumbers`. -/
def showLNWord : List Char := ['s', 'h', 'o', 'w', 'L', 'i', 'n', 'e', 'N', 'u', 'm', 'b', 'e', 'r', 's']

/-- The flag word `lineNumbers`. -/
def lineNWord : List Char := ['l', 'i', 'n', 'e', 'N', 'u', 'm', 'b', 'e', 'r', 's']

/-- The directive word `focus`. -/
def focusWord : List Char := ['f', 'o', 'c', 'u', 's']

/-- Match of one alternative `word:(\d+)` anchored at the current
position; returns the numeric value of the capture. -/
def tryFlagColonAt (word : List Char) (s : List Char) : Option Nat :=
  if beginsWith word s then
    let after := s.drop word.length
    if after.head? == some ':' then
      let ds := (after.drop 1).takeWhile Char.isDigit
      if ds.isEmpty then none else some (digitsToNat ds)
    else none
  else none

/-- Match of `(?:showLineNumbers|lineNumbers):(\d+)` anchored at the
current position (the two alternatives start with different characters,
so trying them in order is exact). -/
def tryLNStartAt (s : List Char) : Option Nat :=
  match tryFlagColonAt showLNWord s with
  | some n => some n
  | none => tryFlagColonAt lineNWord s

/-- Match of `\+([0-9,]+)` (for `mark = '+'`) or `-([0-9,]+)` (for
`mark = '-'`) anchored at the current position; returns the capture. -/
def tryDiffAt (mark : Char) : List Char → Option (List Char)
  | c :: rest =>
    if c == mark then
      let run := rest.takeWhile isDiffChar
      if run.isEmpty then none else some run
    else none
  | [] => none

/-- Match of `focus\{([0-9,-]+)\}` anchored at the current position;
returns the brace capture. -/
def tryFocusAt (s : List Char) : Option (List Char) :=
  if beginsWith focusWord s then tryHighlightAt (s.drop focusWord.length) else none

/-! ## Capture post-processing -/

/-- Model of `match[1].split(',').map((n) => parseInt(n.trim(), 10))` on a
diff capture. -/
def parseDiffList (run : List Char) : List (Option Nat) :=
  (jsSplit ',' run).map (fun p => jsParseInt (trimCh p))

/-- Expansion of one comma-piece of a focus capture, following the source:
a piece containing a hyphen is split, its first two pieces are parsed as
the endpoints, and `Array.from({length: end - start + 1}, (_, i) =>
start + i)` yields the range (empty when the length is not a positive
number, in particular when an endpoint is `NaN` or when `end < start`);
any other piece contributes its single parsed value. -/
def expandFocusPart (part : List Char) : List (Option Nat) :=
  if part.contains '-' then
    let pieces := jsSplit '-' part
    let a := jsParseInt (trimCh (pieces.getD 0 []))
    let b := jsParseInt (trimCh (pieces.getD 1 []))
    match a, b with
    | some s, some e => if e + 1 ≤ s then [] else (List.range' s (e + 1 - s)).map some
    | _, _ => []
  else [jsParseInt (trimCh part)]

/-- Model of the focus flatMap of the source. -/
def parseFocusList (run : List Char) : List (Option Nat) :=
  (jsSplit ',' run).foldr (fun p acc => expandFocusPart p ++ acc) []

/-! ## The directive set -/

/-- Model of the `lineNumbers` option value: `true`/`false` or
`{ start: n }`. -/
inductive LNSetting where
  | onOff (b : Bool)
  | withStart (start : Nat)
  deriving Repr, DecidableEq

/-- Model of the `diffLines` option object. -/
structure DiffLines where
  added : Option (List (Option Nat)) := none
  removed : Option (List (Option Nat)) := none
  deriving Repr, DecidableEq

/-- Model of `Partial HighlightOptions` as assembled by
`parseMetaString`: every field is absent (`none`) unless its pattern
matched. -/
structure HighlightOptions where
  highlightLines : Option (List Char) := none
  lineNumbers : Option LNSetting := none
  diffLines : Option DiffLines := none
  focusLines : Option (List (Option Nat)) := none
  deriving Repr, DecidableEq

/-- Embedding of `parseMetaString` from src/index.ts, step for step:
`if (!meta) return {}` (absent and empty strings are falsy); first the
highlight brace scan, then the line-number flags with the optional
colon form, then the two independent diff scans, then the focus scan. -/
def parseMetaString (meta : Option String) : HighlightOptions :=
  match meta with
  | none => {}
  | some s =>
    if s.data.isEmpty then {} else
    let cs := s.data
    let o0 : HighlightOptions := {}
    let o1 :=
      match scanFirst tryHighlightAt cs with
      | some run => { o0 with highlightLines := some run }
      | none => o0
    let o2 :=
      if containsSub cs showLNWord || containsSub cs lineNWord then
        let oFlag := { o1 with lineNumbers := some (LNSetting.onOff true) }
        match scanFirst tryLNStartAt cs with
        | some n => { oFlag with lineNumbers := some (LNSetting.withStart n) }
        | none => oFlag
      else o1
    let dAdd := scanFirst (tryDiffAt '+') cs
    let dRem := scanFirst (tryDiffAt '-') cs
    let o3 :=
      if dAdd.isSome || dRem.isSome then
        { o2 with diffLines := some { added := dAdd.map parseDiffList, removed := dRem.map parseDiffList } }
      else o2
    let o4 :=
      match scanFirst tryFocusAt cs with
      | some run => { o3 with focusLines := some (parseFocusList run) }
      | none => o3
    o4

/-! ## Lemmas about the string utilities -/

theorem beginsWith_iff (p : List Char) : ∀ s : List Char, beginsWith p s = true ↔ ∃ post, s = p ++ post := by
  induction p with
  | nil => intro s; simp [beginsWith]
  | cons a ps ih =>
    intro s
    cases s with
    | nil => simp [beginsWith]
    | cons c cs =>
      simp only [beginsWith, Bool.and_eq_true, beq_iff_eq, ih cs]
      constructor
      · rintro ⟨rfl, post, rfl⟩; exact ⟨post, rfl⟩
      · rintro ⟨post, h⟩
        cases h
        exact ⟨rfl, post, rfl⟩

theorem containsSub_iff (pat : List Char) : ∀ cs : List Char,
    containsSub cs pat = true ↔ ∃ pre post, cs = pre ++ pat ++ post := by
  intro cs
  induction cs with
  | nil =>
    simp only [containsSub, List.isEmpty_iff]
    constructor
    · rintro rfl; exact ⟨[], [], rfl⟩
    · rintro ⟨pre, post, h⟩
      rcases List.append_eq_nil.mp h.symm with ⟨h1, h2⟩
      exact (List.append_eq_nil.mp h1).2
  | cons c rest ih =>
    simp only [containsSub, Bool.or_eq_true, beginsWith_iff, ih]
    constructor
    · rintro (⟨post, h⟩ | ⟨pre, post, rfl⟩)
      · exact ⟨[], post, by simpa using h⟩
      · exact ⟨c :: pre, post, rfl⟩
    · rintro ⟨pre, post, h⟩
      cases pre with
      | nil => exact Or.inl ⟨post, by simpa using h⟩
      | cons x xs =>
        rcases h with h
        simp only [List.cons_append] at h
        cases h
        exact Or.inr ⟨xs, post, rfl⟩

theorem takeWhile_run (p : Char → Bool) (run rest : List Char)
    (hall : ∀ c ∈ run, p c = true) (hstop : ∀ x ∈ rest.head?, p x = false) :
    (run ++ rest).takeWhile p = run ∧ (run ++ rest).dropWhile p = rest := by
  induction run with
  | nil =>
    cases rest with
    | nil => simp
    | cons x xs =>
      have hx : p x = false := hstop x (by simp)
      simp [List.takeWhile_cons, List.dropWhile_cons, hx]
  | cons r rs ih =>
    have hr : p r = true := hall r (by simp)
    have := ih (fun c hc => hall c (by simp [hc]))
    simp [List.takeWhile_cons, List.dropWhile_cons, hr, this.1, this.2]

theorem dropWhile_all_false (p : Char → Bool) (l : List Char) (h : ∀ c ∈ l, p c = false) :
    l.dropWhile p = l := by
  cases l with
  | nil => rfl
  | cons c cs => simp [List.dropWhile_cons, h c (by simp)]

theorem trimCh_no_ws (l : List Char) (h : ∀ c ∈ l, c.isWhitespace = false) : trimCh l = l := by
  unfold trimCh
  rw [dropWhile_all_false _ _ h]
  rw [dropWhile_all_false _ _ (fun c hc => h c (List.mem_reverse.mp hc))]
  exact List.reverse_reverse l

theorem jsSplit_no_sep (sep : Char) : ∀ l : List Char, sep ∉ l → jsSplit sep l = [l] := by
  intro l
  induction l with
  | nil => intro _; rfl
  | cons c cs ih =>
    intro h
    have hc : (c == sep) = false := by
      simp only [beq_eq_false_iff_ne]
      intro hcs; exact h (hcs ▸ List.mem_cons_self c cs)
    have := ih (fun hm => h (List.mem_cons_of_mem c hm))
    simp [jsSplit, this, hc]

theorem jsSplit_ne_nil (sep : Char) : ∀ l : List Char, jsSplit sep l ≠ [] := by
  intro l
  cases l with
  | nil => simp [jsSplit]
  | cons c cs =>
    simp only [jsSplit]
    cases h : jsSplit sep cs with
    | nil => simp
    | cons g gs =>
      by_cases hc : (c == sep) = true <;> simp [hc]

theorem jsSplit_append_sep (sep : Char) (xs ys : List Char) (hxs : sep ∉ xs) :
    jsSplit sep (xs ++ sep :: ys) = xs :: jsSplit sep ys := by
  induction xs with
  | nil =>
    simp only [List.nil_append, jsSplit, beq_self_eq_true, if_true]
    cases h : jsSplit sep ys with
    | nil => cases (jsSplit_ne_nil sep ys) h
    | cons g gs => rfl
  | cons x xs ih =>
    have hx : (x == sep) = false := by
      simp only [beq_eq_false_iff_ne]
      intro hcs; exact hxs (hcs ▸ List.mem_cons_self x xs)
    have h2 := ih (fun hm => hxs (List.mem_cons_of_mem x hm))
    simp [jsSplit, h2, hx]

/-! ## Lemmas about leftmost regex scanning -/

theorem scanFirst_eq_none_iff {α : Type} (tryAt : List Char → Option α) (h0 : tryAt [] = none) :
    ∀ cs : List Char, scanFirst tryAt cs = none ↔ ∀ i, tryAt (cs.drop i) = none := by
  intro cs
  induction cs with
  | nil =>
    simp only [scanFirst, true_iff]
    intro i; rw [List.drop_nil]; exact h0
  | cons c rest ih =>
    simp only [scanFirst]
    cases h : tryAt (c :: rest) with
    | some r =>
      constructor
      · intro hc; cases hc
      · intro hall
        have h0' := hall 0
        rw [List.drop_zero, h] at h0'
        cases h0'
    | none =>
      rw [ih]
      constructor
      · intro hall i
        cases i with
        | zero => rw [List.drop_zero]; exact h
        | succ j => rw [List.drop_succ_cons]; exact hall j
      · intro hall i
        have := hall (i + 1)
        rwa [List.drop_succ_cons] at this

theorem scanFirst_eq_some_iff {α : Type} (tryAt : List Char → Option α) (h0 : tryAt [] = none) :
    ∀ (cs : List Char) (r : α), scanFirst tryAt cs = some r ↔
      ∃ i, tryAt (cs.drop i) = some r ∧ ∀ j, j < i → tryAt (cs.drop j) = none := by
  intro cs
  induction cs with
  | nil =>
    intro r
    constructor
    · intro hc; cases hc
    · rintro ⟨i, hi, -⟩
      rw [List.drop_nil, h0] at hi
      cases hi
  | cons c rest ih =>
    intro r
    simp only [scanFirst]
    cases h : tryAt (c :: rest) with
    | some r' =>
      constructor
      · intro hr
        refine ⟨0, ?_, ?_⟩
        · rw [List.drop_zero, h]; exact hr
        · intro j hj; exact absurd hj (Nat.not_lt_zero j)
      · rintro ⟨i, hi, hlt⟩
        cases i with
        | zero => rw [List.drop_zero, h] at hi; exact hi
        | succ j =>
          have := hlt 0 (Nat.succ_pos j)
          rw [List.drop_zero, h] at this
          cases this
    | none =>
      rw [ih r]
      constructor
      · rintro ⟨i, hi, hlt⟩
        refine ⟨i + 1, ?_, ?_⟩
        · rwa [List.drop_succ_cons]
        · intro j hj
          cases j with
          | zero => rw [List.drop_zero]; exact h
          | succ k =>
            rw [List.drop_succ_cons]
            exact hlt k (by omega)
      · rintro ⟨i, hi, hlt⟩
        cases i with
        | zero => rw [List.drop_zero, h] at hi; cases hi
        | succ k =>
          rw [List.drop_succ_cons] at hi
          refine ⟨k, hi, ?_⟩
          intro j hj
          have := hlt (j + 1) (by omega)
          rwa [List.drop_succ_cons] at this

/-- Turns a family of `= some`-characterizations into a
`= none`-characterization. -/
theorem option_none_iff_all_not {α : Type} {o : Option α} {P : α → Prop}
    (h : ∀ a, o = some a ↔ P a) : o = none ↔ ∀ a, ¬P a := by
  cases o with
  | none =>
    constructor
    · intro _ a hp
      cases (h a).mpr hp
    · intro _; rfl
  | some v =>
    constructor
    · intro hc; cases hc
    · intro hall
      exact absurd ((h v).mp rfl) (hall v)

/-! ## Semantic characterizations of the anchored matchers -/

theorem tryHighlightAt_eq_some_iff (l r : List Char) :
    tryHighlightAt l = some r ↔
      (r ≠ [] ∧ (∀ c ∈ r, isHLChar c = true) ∧ ∃ rest, l = '\x7b' :: (r ++ '\x7d' :: rest)) := by
  constructor
  · intro h
    cases l with
    | nil => cases h
    | cons c tail =>
      simp only [tryHighlightAt] at h
      by_cases hc : (c == '\x7b') = true
      on_goal 2 => rw [if_neg hc] at h; cases h
      rw [if_pos hc] at h
      by_cases hrun : (tail.takeWhile isHLChar).isEmpty = true
      · rw [if_pos hrun] at h; cases h
      rw [if_neg hrun] at h
      by_cases hhd : ((tail.drop (tail.takeWhile isHLChar).length).head? == some '\x7d') = true
      on_goal 2 => rw [if_neg hhd] at h; cases h
      rw [if_pos hhd] at h
      have hr : tail.takeWhile isHLChar = r := by injection h
      have hdec := List.takeWhile_append_dropWhile (p := isHLChar) (l := tail)
      have hdrop : tail.drop (tail.takeWhile isHLChar).length = tail.dropWhile isHLChar := by
        have h1 := List.drop_left (tail.takeWhile isHLChar) (tail.dropWhile isHLChar)
        rwa [hdec] at h1
      rw [hdrop] at hhd
      rw [beq_iff_eq] at hhd
      cases hdw : tail.dropWhile isHLChar with
      | nil => rw [hdw] at hhd; cases hhd
      | cons d ds =>
        rw [hdw] at hhd
        simp only [List.head?_cons, Option.some.injEq] at hhd
        refine ⟨?_, ?_, ds, ?_⟩
        · intro hnil
          rw [hr, hnil] at hrun
          exact hrun rfl
        · intro x hx
          rw [← hr] at hx
          exact List.mem_takeWhile_imp hx
        · have hceq : c = '\x7b' := by rwa [beq_iff_eq] at hc
          rw [hceq, ← hr, ← hhd, ← hdw, hdec]
  · rintro ⟨hne, hall, rest, rfl⟩
    have hrun := takeWhile_run isHLChar r ('\x7d' :: rest) hall
      (by intro x hx; simp only [List.head?_cons, Option.mem_def, Option.some.injEq] at hx;
          rw [← hx]; decide)
    simp only [tryHighlightAt, beq_self_eq_true, if_true]
    rw [hrun.1]
    have hne' : r.isEmpty = false := by
      cases r with
      | nil => cases hne rfl
      | cons a as => rfl
    rw [hne']
    simp only [Bool.false_eq_true, if_false]
    have hdrop : (r ++ '\x7d' :: rest).drop r.length = '\x7d' :: rest := List.drop_left _ _
    rw [hdrop]
    simp

theorem tryDiffAt_eq_some_iff (mark : Char) (l r : List Char) :
    tryDiffAt mark l = some r ↔
      (r ≠ [] ∧ (∀ c ∈ r, isDiffChar c = true) ∧
        ∃ rest, l = mark :: (r ++ rest) ∧ (∀ x ∈ rest.head?, isDiffChar x = false)) := by
  constructor
  · intro h
    cases l with
    | nil => cases h
    | cons c tail =>
      simp only [tryDiffAt] at h
      by_cases hc : (c == mark) = true
      on_goal 2 => rw [if_neg hc] at h; cases h
      rw [if_pos hc] at h
      by_cases hrun : (tail.takeWhile isDiffChar).isEmpty = true
      · rw [if_pos hrun] at h; cases h
      rw [if_neg hrun] at h
      have h : tail.takeWhile isDiffChar = r := by injection h
      have hdec := List.takeWhile_append_dropWhile (p := isDiffChar) (l := tail)
      refine ⟨?_, ?_, tail.dropWhile isDiffChar, ?_, ?_⟩
      · intro hnil
        rw [h, hnil] at hrun
        exact hrun rfl
      · intro x hx
        rw [← h] at hx
        exact List.mem_takeWhile_imp hx
      · have hceq : c = mark := by rwa [beq_iff_eq] at hc
        rw [hceq, ← h, hdec]
      · intro x hx
        cases hdw : tail.dropWhile isDiffChar with
        | nil => rw [hdw] at hx; cases hx
        | cons d ds =>
          rw [hdw] at hx
          simp only [List.head?_cons, Option.mem_def, Option.some.injEq] at hx
          rw [← hx]
          have := List.dropWhile_get_zero_not (p := isDiffChar) (l := tail)
          rw [hdw] at this
          simpa using this (by simp)
  · rintro ⟨hne, hall, rest, rfl, hstop⟩
    have hrun := takeWhile_run isDiffChar r rest hall
      (by intro x hx; exact hstop x hx)
    simp only [tryDiffAt, beq_self_eq_true, if_true]
    rw [hrun.1]
    have hne' : r.isEmpty = false := by
      cases r with
      | nil => cases hne rfl
      | cons a as => rfl
    rw [hne']
    simp

theorem tryFlagColonAt_eq_some_iff (word l : List Char) (n : Nat) :
    tryFlagColonAt word l = some n ↔
      ∃ ds rest, l = word ++ ':' :: (ds ++ rest) ∧ ds ≠ [] ∧ (∀ c ∈ ds, c.isDigit = true) ∧
        (∀ x ∈ rest.head?, x.isDigit = false) ∧ digitsToNat ds = n := by
  constructor
  · intro h
    simp only [tryFlagColonAt] at h
    by_cases hb : beginsWith word l = true
    on_goal 2 => rw [if_neg hb] at h; cases h
    rw [if_pos hb] at h
    obtain ⟨post, rfl⟩ := (beginsWith_iff word l).mp hb
    rw [List.drop_left] at h
    by_cases hhd : (post.head? == some ':') = true
    on_goal 2 => rw [if_neg hhd] at h; cases h
    rw [if_pos hhd] at h
    rw [beq_iff_eq] at hhd
    cases post with
    | nil => cases hhd
    | cons p ps =>
      simp only [List.head?_cons, Option.some.injEq] at hhd
      simp only [List.drop_succ_cons, List.drop_zero] at h
      by_cases hds : (ps.takeWhile Char.isDigit).isEmpty = true
      · rw [if_pos hds] at h; cases h
      rw [if_neg hds] at h
      have h : digitsToNat (ps.takeWhile Char.isDigit) = n := by injection h
      have hdec := List.takeWhile_append_dropWhile (p := Char.isDigit) (l := ps)
      refine ⟨ps.takeWhile Char.isDigit, ps.dropWhile Char.isDigit, ?_, ?_, ?_, ?_, h⟩
      · rw [hhd, hdec]
      · intro hnil
        rw [hnil] at hds
        exact hds rfl
      · intro c hc
        exact List.mem_takeWhile_imp hc
      · intro x hx
        cases hdw : ps.dropWhile Char.isDigit with
        | nil => rw [hdw] at hx; cases hx
        | cons d dsx =>
          rw [hdw] at hx
          simp only [List.head?_cons, Option.mem_def, Option.some.injEq] at hx
          rw [← hx]
          have := List.dropWhile_get_zero_not (p := Char.isDigit) (l := ps)
          rw [hdw] at this
          simpa using this (by simp)
  · rintro ⟨ds, rest, rfl, hne, hall, hstop, rfl⟩
    have hb : beginsWith word (word ++ ':' :: (ds ++ rest)) = true :=
      (beginsWith_iff _ _).mpr ⟨_, rfl⟩
    simp only [tryFlagColonAt, hb, if_true, List.drop_left, List.head?_cons, beq_self_eq_true,
      List.drop_succ_cons, List.drop_zero]
    have hrun := takeWhile_run Char.isDigit ds rest hall hstop
    rw [hrun.1]
    have hne' : ds.isEmpty = false := by
      cases ds with
      | nil => cases hne rfl
      | cons a as => rfl
    rw [hne']
    simp

theorem tryLNStartAt_eq_some_iff (l : List Char) (n : Nat) :
    tryLNStartAt l = some n ↔
      ∃ w ds rest, (w = showLNWord ∨ w = lineNWord) ∧ l = w ++ ':' :: (ds ++ rest) ∧ ds ≠ [] ∧
        (∀ c ∈ ds, c.isDigit = true) ∧ (∀ x ∈ rest.head?, x.isDigit = false) ∧
        digitsToNat ds = n := by
  constructor
  · intro h
    simp only [tryLNStartAt] at h
    cases hs : tryFlagColonAt showLNWord l with
    | some m =>
      rw [hs] at h
      have hm : m = n := by injection h
      subst hm
      obtain ⟨ds, rest, hl, h1, h2, h3, h4⟩ := (tryFlagColonAt_eq_some_iff _ _ _).mp hs
      exact ⟨showLNWord, ds, rest, Or.inl rfl, hl, h1, h2, h3, h4⟩
    | none =>
      rw [hs] at h
      obtain ⟨ds, rest, hl, h1, h2, h3, h4⟩ := (tryFlagColonAt_eq_some_iff _ _ _).mp h
      exact ⟨lineNWord, ds, rest, Or.inr rfl, hl, h1, h2, h3, h4⟩
  · rintro ⟨w, ds, rest, hw, rfl, h1, h2, h3, h4⟩
    cases hw with
    | inl hws =>
      subst hws
      have hmain : tryFlagColonAt showLNWord (showLNWord ++ ':' :: (ds ++ rest)) = some n :=
        (tryFlagColonAt_eq_some_iff _ _ _).mpr ⟨ds, rest, rfl, h1, h2, h3, h4⟩
      simp only [tryLNStartAt, hmain]
    | inr hwl =>
      subst hwl
      have hline : tryFlagColonAt lineNWord (lineNWord ++ ':' :: (ds ++ rest)) = some n :=
        (tryFlagColonAt_eq_some_iff _ _ _).mpr ⟨ds, rest, rfl, h1, h2, h3, h4⟩
      have hfirst : ('s' == 'l') = false := by decide
      have hshow : tryFlagColonAt showLNWord (lineNWord ++ ':' :: (ds ++ rest)) = none := by
        simp [tryFlagColonAt, showLNWord, lineNWord, beginsWith, hfirst]
      simp only [tryLNStartAt, hshow, hline]

/-! ## The four scans as standalone functions

The source mutates one `options` object in sequence; each assignment
depends only on its own regex scan of the whole string.  The functions
below are those scans in isolation; `parse_eq_scans` proves the parse is
exactly their product. -/

/-- The highlight field in isolation. -/
def scanHighlight (cs : List Char) : Option (List Char) :=
  scanFirst tryHighlightAt cs

/-- The line-number field in isolation. -/
def scanLineNumbers (cs : List Char) : Option LNSetting :=
  if containsSub cs showLNWord || containsSub cs lineNWord then
    match scanFirst tryLNStartAt cs with
    | some n => some (LNSetting.withStart n)
    | none => some (LNSetting.onOff true)
  else none

/-- The diff field in isolation. -/
def scanDiff (cs : List Char) : Option DiffLines :=
  let dAdd := scanFirst (tryDiffAt '+') cs
  let dRem := scanFirst (tryDiffAt '-') cs
  if dAdd.isSome || dRem.isSome then
    some { added := dAdd.map parseDiffList, removed := dRem.map parseDiffList }
  else none

/-- The focus field in isolation. -/
def scanFocus (cs : List Char) : Option (List (Option Nat)) :=
  (scanFirst tryFocusAt cs).map parseFocusList

theorem parse_eq_scans (s : String) :
    parseMetaString (some s) =
      { highlightLines := scanHighlight s.data, lineNumbers := scanLineNumbers s.data,
        diffLines := scanDiff s.data, focusLines := scanFocus s.data } := by
  by_cases he : s.data.isEmpty = true
  · have hd : s.data = [] := List.isEmpty_iff.mp he
    simp only [parseMetaString, he, if_true, hd]
    rfl
  · cases h1 : scanFirst tryHighlightAt s.data <;>
    cases h2 : containsSub s.data showLNWord || containsSub s.data lineNWord <;>
    cases h3 : scanFirst tryLNStartAt s.data <;>
    cases h4 : scanFirst (tryDiffAt '+') s.data <;>
    cases h5 : scanFirst (tryDiffAt '-') s.data <;>
    cases h6 : scanFirst tryFocusAt s.data <;>
    simp [parseMetaString, he, scanHighlight, scanLineNumbers, scanDiff, scanFocus,
      h1, h2, h3, h4, h5, h6]

/-! ## Spec-side predicates (from the claims' wording) -/

/-- The pattern occurs somewhere in the string. -/
def hasSubstring (cs pat : List Char) : Prop := ∃ pre post, cs = pre ++ pat ++ post

/-- One of the two recognized flag words occurs in the string. -/
def lnFlagPresent (cs : List Char) : Prop :=
  hasSubstring cs showLNWord ∨ hasSubstring cs lineNWord

/-- A flag word occurs at position `i`, immediately followed by a colon
and a nonempty maximal run of decimal digits of value `n` (no intervening
whitespace, or anything else). -/
def colonStartAt (cs : List Char) (i n : Nat) : Prop :=
  ∃ w ds rest, (w = showLNWord ∨ w = lineNWord) ∧ cs.drop i = w ++ ':' :: (ds ++ rest) ∧ ds ≠ [] ∧
    (∀ c ∈ ds, c.isDigit = true) ∧ (∀ x ∈ rest.head?, x.isDigit = false) ∧
    digitsToNat ds = n

/-- A valid highlight brace group with content `r` starts at position
`i`: an opening brace, a nonempty run of digits/commas/hyphens, and the
closing brace. -/
def hlGroupAt (cs : List Char) (i : Nat) (r : List Char) : Prop :=
  r ≠ [] ∧ (∀ c ∈ r, isHLChar c = true) ∧ ∃ rest, cs.drop i = '\x7b' :: (r ++ '\x7d' :: rest)

/-- A diff group for `mark` with capture `r` starts at position `i`: the
mark followed by a nonempty maximal run of digits/commas. -/
def diffGroupAt (mark : Char) (cs : List Char) (i : Nat) (r : List Char) : Prop :=
  r ≠ [] ∧ (∀ c ∈ r, isDiffChar c = true) ∧
    ∃ rest, cs.drop i = mark :: (r ++ rest) ∧ (∀ x ∈ rest.head?, isDiffChar x = false)

theorem hlGroupAt_iff (cs : List Char) (i : Nat) (r : List Char) :
    tryHighlightAt (cs.drop i) = some r ↔ hlGroupAt cs i r := by
  unfold hlGroupAt
  exact tryHighlightAt_eq_some_iff _ _

theorem diffGroupAt_iff (mark : Char) (cs : List Char) (i : Nat) (r : List Char) :
    tryDiffAt mark (cs.drop i) = some r ↔ diffGroupAt mark cs i r := by
  unfold diffGroupAt
  exact tryDiffAt_eq_some_iff _ _ _

theorem colonStartAt_iff (cs : List Char) (i n : Nat) :
    tryLNStartAt (cs.drop i) = some n ↔ colonStartAt cs i n := by
  unfold colonStartAt
  exact tryLNStartAt_eq_some_iff _ _

theorem containsSub_bool_iff (cs pat : List Char) :
    containsSub cs pat = true ↔ hasSubstring cs pat := by
  unfold hasSubstring
  exact containsSub_iff pat cs

/-- Leftmost-match characterization of a whole scan, in terms of a
per-position predicate equivalent to the anchored matcher. -/
theorem scanFirst_leftmost {α : Type} (tryAt : List Char → Option α) (h0 : tryAt [] = none)
    (cs : List Char) (P : Nat → α → Prop)
    (hiff : ∀ i a, tryAt (cs.drop i) = some a ↔ P i a) :
    (∀ r, scanFirst tryAt cs = some r ↔ ∃ i, P i r ∧ ∀ j a, j < i → ¬P j a) ∧
    (scanFirst tryAt cs = none ↔ ∀ i a, ¬P i a) := by
  have hnone : ∀ j, tryAt (cs.drop j) = none ↔ ∀ a, ¬P j a := fun j =>
    option_none_iff_all_not (fun a => hiff j a)
  constructor
  · intro r
    rw [scanFirst_eq_some_iff tryAt h0 cs r]
    constructor
    · rintro ⟨i, hi, hj⟩
      refine ⟨i, (hiff i r).mp hi, ?_⟩
      intro j a hji
      exact (hnone j).mp (hj j hji) a
    · rintro ⟨i, hi, hj⟩
      refine ⟨i, (hiff i r).mpr hi, ?_⟩
      intro j hji
      exact (hnone j).mpr (fun a => hj j a hji)
  · rw [scanFirst_eq_none_iff tryAt h0 cs]
    constructor
    · intro hall i a
      exact (hnone i).mp (hall i) a
    · intro hall i
      exact (hnone i).mpr (fun a => hall i a)

/-! ## Further parser facts -/

theorem isDigit_not_ws (c : Char) (h : c.isDigit = true) : c.isWhitespace = false := by
  simp only [Char.isWhitespace, Bool.or_eq_false_iff, decide_eq_false_iff_not]
  refine ⟨⟨⟨?_, ?_⟩, ?_⟩, ?_⟩ <;> rintro rfl <;> revert h <;> decide

theorem isEmpty_false_of_ne_nil {l : List Char} (hl : l ≠ []) : l.isEmpty = false := by
  cases l with
  | nil => exact absurd rfl hl
  | cons a as => rfl

/-- Projection of the parsed diff object onto its added-lines field. -/
def addedOf (o : HighlightOptions) : Option (List (Option Nat)) :=
  o.diffLines.bind DiffLines.added

/-- Projection of the parsed diff object onto its removed-lines field. -/
def removedOf (o : HighlightOptions) : Option (List (Option Nat)) :=
  o.diffLines.bind DiffLines.removed

/-! ## The claims about the directive parser -/

/-- C2 — counterexample.  The claim states that text belonging to one
directive type never sets a different directive type's field.  On the
annotation string `{1-3}` (only a highlight directive is present) the
diff-remove scan matches the `-3` inside the brace range and sets the
removed-lines field; on `focus{2,3}` the highlight scan matches the
focus group's braces and sets the highlight field. -/
theorem claim_C2_counterexample :
    (parseMetaString (some ("\x7b1-3\x7d"))).highlightLines = some ['1', '-', '3'] ∧
    (parseMetaString (some ("\x7b1-3\x7d"))).diffLines =
      some { added := none, removed := some [some 3] } ∧
    (parseMetaString (some ("focus\x7b2,3\x7d"))).focusLines = some [some 2, some 3] ∧
    (parseMetaString (some ("focus\x7b2,3\x7d"))).highlightLines = some ['2', ',', '3'] :=
  ⟨rfl, rfl, rfl, rfl⟩

/-- C2 — amended.  Each directive type is extracted by its own
independent scan of the whole annotation string, so the parse result is
exactly the product of the four scans and the relative order of
non-overlapping directives is immaterial; however, the scans may match
text belonging to a different directive type: the hyphen of a brace
range `{1-3}` also matches the diff-remove scan, and the brace group of
`focus{2,3}` also matches the highlight scan. -/
theorem claim_C2_amended :
    (∀ s : String, parseMetaString (some s) =
      { highlightLines := scanHighlight s.data, lineNumbers := scanLineNumbers s.data,
        diffLines := scanDiff s.data, focusLines := scanFocus s.data }) ∧
    (parseMetaString (some ("\x7b1-3\x7d"))).diffLines =
      some { added := none, removed := some [some 3] } ∧
    (parseMetaString (some ("focus\x7b2,3\x7d"))).highlightLines = some ['2', ',', '3'] :=
  ⟨parse_eq_scans, rfl, rfl⟩

/-- C3 — parser totality.  In the embedding `parseMetaString` is a total
function, so for every input (absent or any string) it returns a
directive set; absent and empty annotations give the empty set, and
unknown flags, quoted attributes, unicode content, and reversed focus
ranges all produce a normal (possibly empty) result rather than an
error. -/
theorem claim_C3_parser_totality :
    (∀ m : Option String, ∃ r : HighlightOptions, parseMetaString m = r) ∧
    parseMetaString none = {} ∧
    parseMetaString (some ("")) = {} ∧
    parseMetaString (some ("unknownFlag")) = {} ∧
    parseMetaString (some ("title=\"example.js\"")) = {} ∧
    parseMetaString (some ("日本語")) = {} ∧
    (parseMetaString (some ("focus\x7b3-1\x7d"))).focusLines = some [] :=
  ⟨fun _ => ⟨_, rfl⟩, rfl, rfl, rfl, rfl, rfl, rfl⟩

/-- C7 — line-numbering flag parsing.  Numbering is enabled exactly when
one of the two flag words occurs anywhere in the string; the start is an
explicit integer exactly when the leftmost flag-colon-digits occurrence
(no intervening whitespace) carries that integer; a flag without any
colon form (in particular `lineNumbers: 10`, with a space) enables
numbering at the default start. -/
theorem claim_C7_line_numbering :
    (∀ s : String,
      (((parseMetaString (some s)).lineNumbers ≠ none) ↔ lnFlagPresent s.data) ∧
      (∀ n, (parseMetaString (some s)).lineNumbers = some (LNSetting.withStart n) ↔
        (lnFlagPresent s.data ∧
          ∃ i, colonStartAt s.data i n ∧ ∀ j m, j < i → ¬colonStartAt s.data j m)) ∧
      ((parseMetaString (some s)).lineNumbers = some (LNSetting.onOff true) ↔
        (lnFlagPresent s.data ∧ ∀ i m, ¬colonStartAt s.data i m))) ∧
    (parseMetaString (some ("showLineNumbers:10"))).lineNumbers =
      some (LNSetting.withStart 10) ∧
    (parseMetaString (some ("lineNumbers: 10"))).lineNumbers =
      some (LNSetting.onOff true) := by
  refine ⟨?_, rfl, rfl⟩
  intro s
  have hlm := scanFirst_leftmost tryLNStartAt rfl s.data (colonStartAt s.data)
    (colonStartAt_iff s.data)
  have hflag : (containsSub s.data showLNWord || containsSub s.data lineNWord) = true ↔
      lnFlagPresent s.data := by
    unfold lnFlagPresent
    rw [Bool.or_eq_true, containsSub_bool_iff, containsSub_bool_iff]
  rw [parse_eq_scans s]
  dsimp only
  unfold scanLineNumbers
  by_cases hb : (containsSub s.data showLNWord || containsSub s.data lineNWord) = true
  · rw [if_pos hb]
    have hfp : lnFlagPresent s.data := hflag.mp hb
    cases hsf : scanFirst tryLNStartAt s.data with
    | some m =>
      refine ⟨⟨fun _ => hfp, fun _ => by simp⟩, ?_, ?_⟩
      · intro n
        constructor
        · intro he
          simp only [Option.some.injEq, LNSetting.withStart.injEq] at he
          subst he
          exact ⟨hfp, (hlm.1 m).mp hsf⟩
        · rintro ⟨-, i, hi, hj⟩
          obtain ⟨i', hi', hj'⟩ := (hlm.1 m).mp hsf
          rcases Nat.lt_trichotomy i i' with hlt | heq | hgt
          · exact absurd hi (hj' i n hlt)
          · subst heq
            have e1 := (colonStartAt_iff s.data i n).mpr hi
            have e2 := (colonStartAt_iff s.data i m).mpr hi'
            rw [e1] at e2
            simp only [Option.some.injEq] at e2
            rw [e2]
          · exact absurd hi' (hj i' m hgt)
      · constructor
        · intro he
          simp at he
        · rintro ⟨-, hall⟩
          obtain ⟨i, hi, -⟩ := (hlm.1 m).mp hsf
          exact absurd hi (hall i m)
    | none =>
      have hnone := hlm.2.mp hsf
      refine ⟨⟨fun _ => hfp, fun _ => by simp⟩, ?_, ?_⟩
      · intro n
        constructor
        · intro he
          simp at he
        · rintro ⟨-, i, hi, -⟩
          exact absurd hi (hnone i n)
      · exact ⟨fun _ => ⟨hfp, hnone⟩, fun _ => rfl⟩
  · rw [if_neg hb]
    have hnf : ¬lnFlagPresent s.data := fun hp => hb (hflag.mpr hp)
    refine ⟨⟨fun hne => absurd rfl hne, fun hp => absurd hp hnf⟩, ?_, ?_⟩
    · intro n
      exact ⟨fun he => (by cases he), fun h => absurd h.1 hnf⟩
    · exact ⟨fun he => (by cases he), fun h => absurd h.1 hnf⟩

/-- C8 — counterexample.  The claim states that when the first brace
group's content is invalid the highlight field stays absent.  On
`{x} {5}` the first brace group `{x}` is invalid, yet the scan continues
rightward and the field is set from the later group `{5}`. -/
theorem claim_C8_counterexample :
    (parseMetaString (some ("\x7bx\x7d \x7b5\x7d"))).highlightLines = some ['5'] ∧
    (parseMetaString (some ("\x7bx\x7d \x7b5\x7d"))).highlightLines ≠ none :=
  ⟨rfl, by decide⟩

/-- C8 — amended.  The highlight field holds the capture of the leftmost
valid brace group (a nonempty run of digits/commas/hyphens enclosed in
braces); later groups are ignored.  A brace group with empty or
out-of-alphabet content never matches, and the scan skips past it, so
the field stays absent exactly when no valid group occurs anywhere in
the string. -/
theorem claim_C8_amended :
    (∀ (s : String) (r : List Char),
      (parseMetaString (some s)).highlightLines = some r ↔
        ∃ i, hlGroupAt s.data i r ∧ ∀ j r2, j < i → ¬hlGroupAt s.data j r2) ∧
    (∀ s : String, (parseMetaString (some s)).highlightLines = none ↔
        ∀ i r, ¬hlGroupAt s.data i r) ∧
    (parseMetaString (some ("\x7b1,2\x7d \x7b9\x7d"))).highlightLines = some ['1', ',', '2'] ∧
    (parseMetaString (some ("\x7bx\x7d \x7b5\x7d"))).highlightLines = some ['5'] ∧
    (parseMetaString (some ("\x7b\x7d"))).highlightLines = none := by
  refine ⟨?_, ?_, rfl, rfl, rfl⟩
  · intro s r
    have hlm := scanFirst_leftmost tryHighlightAt rfl s.data (hlGroupAt s.data)
      (hlGroupAt_iff s.data)
    rw [parse_eq_scans s]
    exact hlm.1 r
  · intro s
    have hlm := scanFirst_leftmost tryHighlightAt rfl s.data (hlGroupAt s.data)
      (hlGroupAt_iff s.data)
    rw [parse_eq_scans s]
    exact hlm.2

/-- C9 — counterexample.  The claim states that a `+` or `-` indicator
with no digits following it does not match.  On the annotation `+,`
there is no digit after the indicator, yet the regex class `[0-9,]`
accepts the comma, so the scan matches and sets the added-lines field
(to two NaN entries). -/
theorem claim_C9_counterexample :
    (parseMetaString (some ("+,"))).diffLines =
      some { added := some [none, none], removed := none } ∧
    (parseMetaString (some ("+,"))).diffLines ≠ none :=
  ⟨rfl, by decide⟩

/-- C9 — amended.  The added set comes from the leftmost `+`-prefixed
nonempty run of digits/commas, the removed set from the leftmost such
`-`-prefixed run, by two independent scans whose relative order in the
string is immaterial; an indicator followed by neither a digit nor a
comma does not match, but one followed by commas alone does match and
contributes NaN entries. -/
theorem claim_C9_amended :
    (∀ (s : String) (l : List (Option Nat)),
      addedOf (parseMetaString (some s)) = some l ↔
        ∃ r, (∃ i, diffGroupAt '+' s.data i r ∧ ∀ j r2, j < i → ¬diffGroupAt '+' s.data j r2) ∧
          l = parseDiffList r) ∧
    (∀ (s : String) (l : List (Option Nat)),
      removedOf (parseMetaString (some s)) = some l ↔
        ∃ r, (∃ i, diffGroupAt '-' s.data i r ∧ ∀ j r2, j < i → ¬diffGroupAt '-' s.data j r2) ∧
          l = parseDiffList r) ∧
    (∀ s : String, (parseMetaString (some s)).diffLines = none ↔
      ((∀ i r, ¬diffGroupAt '+' s.data i r) ∧ (∀ i r, ¬diffGroupAt '-' s.data i r))) ∧
    addedOf (parseMetaString (some ("+1,3"))) = some [some 1, some 3] ∧
    addedOf (parseMetaString (some ("-2 +1,3"))) = some [some 1, some 3] ∧
    removedOf (parseMetaString (some ("+1,3 -2"))) = some [some 2] := by
  refine ⟨?_, ?_, ?_, rfl, rfl, rfl⟩
  · intro s l
    have hlmA := scanFirst_leftmost (tryDiffAt '+') rfl s.data (diffGroupAt '+' s.data)
      (diffGroupAt_iff '+' s.data)
    rw [parse_eq_scans s]
    dsimp only [addedOf]
    unfold scanDiff
    cases hA : scanFirst (tryDiffAt '+') s.data with
    | some r0 =>
      cases hR : scanFirst (tryDiffAt '-') s.data with
      | some r1 =>
        simp only [Option.isSome_some, Bool.true_or, if_true, Option.map_some',
          Option.some_bind]
        constructor
        · intro he
          simp only [Option.some.injEq] at he
          exact ⟨r0, (hlmA.1 r0).mp hA, he.symm⟩
        · rintro ⟨r, hr, rfl⟩
          have h2 := (hlmA.1 r).mpr hr
          rw [hA] at h2
          simp only [Option.some.injEq] at h2
          rw [h2]
      | none =>
        simp only [Option.isSome_some, Bool.true_or, if_true, Option.map_some',
          Option.map_none', Option.some_bind]
        constructor
        · intro he
          simp only [Option.some.injEq] at he
          exact ⟨r0, (hlmA.1 r0).mp hA, he.symm⟩
        · rintro ⟨r, hr, rfl⟩
          have h2 := (hlmA.1 r).mpr hr
          rw [hA] at h2
          simp only [Option.some.injEq] at h2
          rw [h2]
    | none =>
      cases hR : scanFirst (tryDiffAt '-') s.data with
      | some r1 =>
        simp only [Option.isSome_none, Option.isSome_some, Bool.false_or, if_true,
          Option.map_none', Option.some_bind]
        constructor
        · intro he; cases he
        · rintro ⟨r, hr, -⟩
          have h2 := (hlmA.1 r).mpr hr
          rw [hA] at h2
          cases h2
      | none =>
        simp only [Option.isSome_none, Bool.false_or, Bool.or_self, if_false,
          Option.none_bind]
        constructor
        · intro he; cases he
        · rintro ⟨r, hr, -⟩
          have h2 := (hlmA.1 r).mpr hr
          rw [hA] at h2
          cases h2
  · intro s l
    have hlmR := scanFirst_leftmost (tryDiffAt '-') rfl s.data (diffGroupAt '-' s.data)
      (diffGroupAt_iff '-' s.data)
    rw [parse_eq_scans s]
    dsimp only [removedOf]
    unfold scanDiff
    cases hR : scanFirst (tryDiffAt '-') s.data with
    | some r0 =>
      cases hA : scanFirst (tryDiffAt '+') s.data with
      | some r1 =>
        simp only [Option.isSome_some, Bool.true_or, if_true, Option.map_some',
          Option.some_bind]
        constructor
        · intro he
          simp only [Option.some.injEq] at he
          exact ⟨r0, (hlmR.1 r0).mp hR, he.symm⟩
        · rintro ⟨r, hr, rfl⟩
          have h2 := (hlmR.1 r).mpr hr
          rw [hR] at h2
          simp only [Option.some.injEq] at h2
          rw [h2]
      | none =>
        simp only [Option.isSome_none, Option.isSome_some, Bool.false_or, if_true,
          Option.map_some', Option.map_none', Option.some_bind]
        constructor
        · intro he
          simp only [Option.some.injEq] at he
          exact ⟨r0, (hlmR.1 r0).mp hR, he.symm⟩
        · rintro ⟨r, hr, rfl⟩
          have h2 := (hlmR.1 r).mpr hr
          rw [hR] at h2
          simp only [Option.some.injEq] at h2
          rw [h2]
    | none =>
      cases hA : scanFirst (tryDiffAt '+') s.data with
      | some r1 =>
        simp only [Option.isSome_some, Bool.true_or, if_true, Option.map_none',
          Option.some_bind]
        constructor
        · intro he; cases he
        · rintro ⟨r, hr, -⟩
          have h2 := (hlmR.1 r).mpr hr
          rw [hR] at h2
          cases h2
      | none =>
        simp only [Option.isSome_none, Bool.or_self, if_false, Option.none_bind]
        constructor
        · intro he; cases he
        · rintro ⟨r, hr, -⟩
          have h2 := (hlmR.1 r).mpr hr
          rw [hR] at h2
          cases h2
  · intro s
    have hlmA := scanFirst_leftmost (tryDiffAt '+') rfl s.data (diffGroupAt '+' s.data)
      (diffGroupAt_iff '+' s.data)
    have hlmR := scanFirst_leftmost (tryDiffAt '-') rfl s.data (diffGroupAt '-' s.data)
      (diffGroupAt_iff '-' s.data)
    rw [parse_eq_scans s]
    dsimp only
    unfold scanDiff
    cases hA : scanFirst (tryDiffAt '+') s.data with
    | some r0 =>
      simp only [Option.isSome_some, Bool.true_or, if_true]
      constructor
      · intro he; cases he
      · rintro ⟨hAll, -⟩
        obtain ⟨i, hi, -⟩ := (hlmA.1 r0).mp hA
        exact absurd hi (hAll i r0)
    | none =>
      cases hR : scanFirst (tryDiffAt '-') s.data with
      | some r1 =>
        simp only [Option.isSome_none, Option.isSome_some, Bool.false_or, if_true]
        constructor
        · intro he; cases he
        · rintro ⟨-, hAll⟩
          obtain ⟨i, hi, -⟩ := (hlmR.1 r1).mp hR
          exact absurd hi (hAll i r1)
      | none =>
        simp only [Option.isSome_none, Bool.or_self, if_false]
        exact ⟨fun _ => ⟨hlmA.2.mp hA, hlmR.2.mp hR⟩, fun _ => rfl⟩

/-- C10 — reversed focus ranges contribute nothing.  A focus range
written high-to-low expands through `Array.from` with a non-positive
length, which yields the empty array: the range contributes zero line
numbers, and `focus{3-1}` parses normally with an empty focus list. -/
theorem claim_C10_reversed_focus :
    (∀ dsa dsb : List Char, dsa ≠ [] → dsb ≠ [] →
      (∀ c ∈ dsa, c.isDigit = true) → (∀ c ∈ dsb, c.isDigit = true) →
      digitsToNat dsb < digitsToNat dsa →
      expandFocusPart (dsa ++ '-' :: dsb) = []) ∧
    (parseMetaString (some ("focus\x7b3-1\x7d"))).focusLines = some [] := by
  refine ⟨?_, rfl⟩
  intro dsa dsb ha hb hda hdb hlt
  have hnda : '-' ∉ dsa := fun hm => absurd (hda '-' hm) (by decide)
  have hndb : '-' ∉ dsb := fun hm => absurd (hdb '-' hm) (by decide)
  have hcont : (dsa ++ '-' :: dsb).contains '-' = true :=
    List.elem_eq_true_of_mem (by simp)
  unfold expandFocusPart
  rw [if_pos hcont]
  rw [jsSplit_append_sep '-' dsa dsb hnda, jsSplit_no_sep '-' dsb hndb]
  simp only [List.getD_cons_zero, List.getD_cons_succ]
  rw [trimCh_no_ws dsa (fun c hc => isDigit_not_ws c (hda c hc)),
      trimCh_no_ws dsb (fun c hc => isDigit_not_ws c (hdb c hc))]
  have hpa : jsParseInt dsa = some (digitsToNat dsa) := by
    unfold jsParseInt
    rw [List.takeWhile_eq_self_iff.mpr hda]
    simp [isEmpty_false_of_ne_nil ha]
  have hpb : jsParseInt dsb = some (digitsToNat dsb) := by
    unfold jsParseInt
    rw [List.takeWhile_eq_self_iff.mpr hdb]
    simp [isEmpty_false_of_ne_nil hb]
  rw [hpa, hpb]
  simp only []
  rw [if_pos (by omega)]

theorem claim_C10_witness : expandFocusPart ['3', '-', '1'] = [] :=
  claim_C10_reversed_focus.1 ['3'] ['1'] (by decide) (by decide) (by decide) (by decide)
    (by decide)

/-! ## The document tree

The tree is an mdast document: code-fence nodes, raw html nodes (as
produced by the transform), containers with ordered children, and other
leaf nodes.  JavaScript mutates `parent.children` in place through
object references; the embedding therefore works on a heap-like view: a
pre-order walk assigns every container a parent id (pid) and extracts
its children list as a table, where a contained container appears as a
reference child.  Splicing mutates one pid's table and leaves every
other table untouched, exactly like the reference mutation of the
source. -/

mutual
inductive MNode where
  | code (lang : Option String) (value : String) (meta : Option String)
  | html (value : String)
  | cont (tag : String) (children : MForest)
  | leaf (tag : String)
inductive MForest where
  | nil
  | cons (n : MNode) (ns : MForest)
end

/-- One entry of a container's children table. -/
inductive Child where
  | codeChild (lang : Option String) (value : String) (meta : Option String)
  | htmlChild (value : String)
  | refChild (pid : Nat) (tag : String)
  | otherChild (tag : String)
  deriving Repr, DecidableEq

/-- A collected code block: its parent id, its index in the parent's
children, and the code node's fields — what the discovery `visit` pass
of the source records. -/
structure Block where
  pid : Nat
  idx : Nat
  lang : Option String
  value : String
  meta : Option String
  deriving Repr, DecidableEq

structure WalkOutN where
  rep : Child
  tabs : List (Nat × List Child)
  blks : List Block
  fresh : Nat

structure WalkOutF where
  reps : List Child
  tabs : List (Nat × List Child)
  blks : List Block
  fresh : Nat

/-- The block entry the discovery visit records for one child: a code
node yields one block at its parent position, anything else none. -/
def hdBlocks (n : MNode) (pPid i : Nat) : List Block :=
  match n with
  | MNode.code l v m => [⟨pPid, i, l, v, m⟩]
  | _ => []

mutual
/-- Walk one node: produce its table entry, the tables of the containers
inside it (pids assigned in pre-order starting at `f`), the code blocks
inside it in visit order, and the next fresh pid. -/
def walkN : MNode → Nat → WalkOutN
  | MNode.code l v m, f => ⟨Child.codeChild l v m, [], [], f⟩
  | MNode.html v, f => ⟨Child.htmlChild v, [], [], f⟩
  | MNode.leaf t, f => ⟨Child.otherChild t, [], [], f⟩
  | MNode.cont t cs, f =>
    let w := walkF cs f 0 (f + 1)
    ⟨Child.refChild f t, (f, w.reps) :: w.tabs, w.blks, w.fresh⟩
/-- Walk a forest of siblings whose parent has pid `pPid`, the first
sibling sitting at index `i`. -/
def walkF : MForest → Nat → Nat → Nat → WalkOutF
  | MForest.nil, _, _, f => ⟨[], [], [], f⟩
  | MForest.cons n ns, pPid, i, f =>
    let w1 := walkN n f
    let w2 := walkF ns pPid (i + 1) w1.fresh
    ⟨w1.rep :: w2.reps, w1.tabs ++ w2.tabs, hdBlocks n pPid i ++ w1.blks ++ w2.blks, w2.fresh⟩
end

/-- The root (an mdast `Root`) is a container with pid 0; its contained
containers get pids from 1 in pre-order. -/
def docWalk (root : MForest) : WalkOutF := walkF root 0 0 1

def lookupTab : List (Nat × List Child) → Nat → List Child
  | [], _ => []
  | (q, cs) :: rest, p => if q = p then cs else lookupTab rest p

/-- The heap view of the document: each pid's children table. -/
def docTables (root : MForest) : Nat → List Child :=
  fun p => if p = 0 then (docWalk root).reps else lookupTab (docWalk root).tabs p

/-- All code blocks of the document in visit (pre-) order. -/
def docBlocks (root : MForest) : List Block := (docWalk root).blks

/-! ## The transform -/

/-- Insert into a weakly-descending-by-index list, after any entries of
equal index — together with the fold below this is the stable descending
sort `codeBlocks.sort((a, b) => b.index - a.index)` of the source. -/
def insertDesc (b : Block) : List Block → List Block
  | [] => [b]
  | x :: xs => if b.idx ≤ x.idx then x :: insertDesc b xs else b :: x :: xs

def sortDescBlocks (bs : List Block) : List Block :=
  bs.foldl (fun acc b => insertDesc b acc) []

/-- Observable events of one transform call, for the hook / loading /
rendering claims. -/
inductive Ev where
  | hookCall
  | loadCall (lang : String)
  | loadWarn (lang : String)
  | renderCall (lang : String) (id : Nat)
  | renderError (lang : String)
  deriving Repr, DecidableEq

/-- The options object passed to `codeToHighlightHtml`: lang, theme,
blockId, the merged lineNumbers, and the spread meta options. -/
structure RenderOpts where
  lang : String
  theme : String
  blockId : Nat
  highlightLines : Option (List Char)
  lineNumbers : Option LNSetting
  diffLines : Option DiffLines
  focusLines : Option (List (Option Nat))
  deriving Repr, DecidableEq

/-- The caller-facing plugin options (`RemarkHighlightApiOptions`): the
theme, whether a `loadLanguages` hook was supplied, and the global
`lineNumbers` default. -/
structure PluginCfg where
  theme : String
  hasLoadLanguages : Bool
  globalLineNumbers : Option LNSetting

/-- The external collaborators: the bundled-language table of shiki, the
grammar loading (`bundledLanguages[lang]()` plus `loadCustomLanguage`,
`true` = success), and the render collaborator `codeToHighlightHtml`
(`none` = the call throws; otherwise html, css, script payloads). -/
structure Collaborators where
  bundled : List String
  loadOk : String → Bool
  render : String → RenderOpts → Option (String × String × String)

/-- The module-level mutable state of src/index.ts: the process-wide
`loadedLanguages` set (insertion-ordered) and `blockCounter`. -/
structure ProcState where
  loadedLanguages : List String
  blockCounter : Nat
  deriving Repr, DecidableEq

/-- Model of `node.lang || 'text'` (absent and empty are falsy). -/
def resolveLang : Option String → String
  | some l => if l = "" then "text" else l
  | none => "text"

/-- Model of `if (node.lang && node.lang !== 'text')` in the detection
pass. -/
def langDetectable : Option String → Option String
  | some l => if l = "" ∨ l = "text" then none else some l
  | none => none

def dedupeFrom (seen : List String) : List String → List String
  | [] => []
  | x :: xs => if x ∈ seen then dedupeFrom seen xs else x :: dedupeFrom (x :: seen) xs

/-- The detection pass: the set of distinct detectable languages in
visit order (a JavaScript `Set` iterates in insertion order). -/
def detectLangs (bs : List Block) : List String :=
  dedupeFrom [] (bs.filterMap (fun b => langDetectable b.lang))

/-- The loading loop of the source: skip cached languages, skip
languages unknown to the bundled table, otherwise call the loader and
cache the identifier only on success (a failure only warns). -/
def loadPhase (col : Collaborators) : List String → List String → List String × List Ev
  | loaded, [] => (loaded, [])
  | loaded, l :: ls =>
    if l ∈ loaded then loadPhase col loaded ls
    else if l ∈ col.bundled then
      if col.loadOk l then
        let r := loadPhase col (loaded ++ [l]) ls
        (r.1, Ev.loadCall l :: r.2)
      else
        let r := loadPhase col loaded ls
        (r.1, Ev.loadCall l :: Ev.loadWarn l :: r.2)
    else loadPhase col loaded ls

/-- The options for one block: `lineNumbers: metaOptions.lineNumbers ??
globalLineNumbers` and the spread of the meta options (the spread comes
last, so an absent meta field leaves the merged value). -/
def mkOpts (cfg : PluginCfg) (b : Block) (id : Nat) : RenderOpts :=
  let m := parseMetaString b.meta
  { lang := resolveLang b.lang, theme := cfg.theme, blockId := id,
    highlightLines := m.highlightLines,
    lineNumbers := m.lineNumbers.orElse (fun _ => cfg.globalLineNumbers),
    diffLines := m.diffLines,
    focusLines := m.focusLines }

def renderBlock (col : Collaborators) (cfg : PluginCfg) (b : Block) (id : Nat) :
    Option (String × String × String) :=
  col.render b.value (mkOpts cfg b id)

/-- The three replacement nodes: markup, then style, then script. -/
def bundleNodes (r : String × String × String) : List Child :=
  [Child.htmlChild r.1, Child.htmlChild r.2.1, Child.htmlChild r.2.2]

/-- Model of `parent.children.splice(index, 1, ...htmlNodes)`. -/
def listSplice (l : List Child) (i : Nat) (repl : List Child) : List Child :=
  l.take i ++ repl ++ l.drop (i + 1)

structure ProcOut where
  tables : Nat → List Child
  counter : Nat
  evs : List Ev

/-- The per-block processing loop: mint the next blockId (the counter
increments even when the render later throws), render, and on success
splice the bundle into the block's parent table at its recorded index;
on failure log and leave the table unchanged. -/
def processBlocks (col : Collaborators) (cfg : PluginCfg) :
    List Block → Nat → (Nat → List Child) → ProcOut
  | [], c, tabs => ⟨tabs, c, []⟩
  | b :: bs, c, tabs =>
    let id := c + 1
    match renderBlock col cfg b id with
    | some r =>
      let tabs2 := fun p => if p = b.pid then listSplice (tabs b.pid) b.idx (bundleNodes r)
        else tabs p
      let rest := processBlocks col cfg bs id tabs2
      ⟨rest.tables, rest.counter, Ev.renderCall (resolveLang b.lang) id :: rest.evs⟩
    | none =>
      let rest := processBlocks col cfg bs id tabs
      ⟨rest.tables, rest.counter, Ev.renderCall (resolveLang b.lang) id ::
        Ev.renderError (resolveLang b.lang) :: rest.evs⟩

structure CallResult where
  tables : Nat → List Child
  state : ProcState
  languagesLoaded : Bool
  trace : List Ev

/-- One call of the async transform returned by `remarkHighlightApi`:
run the hook if supplied and not yet run for this plugin instance
(`languagesLoaded`), detect languages, load them, collect and sort the
code blocks in descending index order, then process them. -/
def transformCall (col : Collaborators) (cfg : PluginCfg) (flag : Bool) (st : ProcState)
    (root : MForest) : CallResult :=
  let runHook := cfg.hasLoadLanguages && !flag
  let hookEvs : List Ev := if runHook then [Ev.hookCall] else []
  let flag2 := if runHook then true else flag
  let blocks := docBlocks root
  let lp := loadPhase col st.loadedLanguages (detectLangs blocks)
  let pr := processBlocks col cfg (sortDescBlocks blocks) st.blockCounter (docTables root)
  { tables := pr.tables,
    state := { loadedLanguages := lp.1, blockCounter := pr.counter },
    languagesLoaded := flag2,
    trace := hookEvs ++ lp.2 ++ pr.evs }

/-- Several transform calls of the same plugin instance in sequence
(the host processing several documents), with the per-call traces. -/
def runCalls (col : Collaborators) (cfg : PluginCfg) :
    Bool → ProcState → List MForest → Bool × ProcState × List (List Ev)
  | flag, st, [] => (flag, st, [])
  | flag, st, t :: ts =>
    let r := transformCall col cfg flag st t
    let rest := runCalls col cfg r.languagesLoaded r.state ts
    (rest.1, rest.2.1, r.trace :: rest.2.2)

/-! ## Spec-side view of the rewrite result -/

/-- The render outcome of every block in processing order, with the
blockId each one is minted (the k-th processed block gets `c0 + k + 1`). -/
def outcomesList (col : Collaborators) (cfg : PluginCfg) :
    List Block → Nat → List (Block × Option (String × String × String))
  | [], _ => []
  | b :: bs, c => (b, renderBlock col cfg b (c + 1)) :: outcomesList col cfg bs (c + 1)

/-- Spec-side expansion of one child of table `p` at index `i`: a code
child becomes its own three-node bundle when its render succeeded, stays
itself when its render failed, and every other child stays itself. -/
def expandChild (outs : List (Block × Option (String × String × String))) (p : Nat)
    (i : Nat) (ch : Child) : List Child :=
  match ch with
  | Child.codeChild _ _ _ =>
    match outs.find? (fun bo => bo.1.pid == p && bo.1.idx == i) with
    | some bo =>
      match bo.2 with
      | some r => bundleNodes r
      | none => [ch]
    | none => [ch]
  | _ => [ch]

def flatIdx (g : Nat → Child → List Child) : Nat → List Child → List Child
  | _, [] => []
  | i, ch :: cs => g i ch ++ flatIdx g (i + 1) cs

/-- Spec-side result for table `p`: every child expanded in place. -/
def expandTable (outs : List (Block × Option (String × String × String))) (p : Nat)
    (cs : List Child) : List Child :=
  flatIdx (expandChild outs p) 0 cs

/-- The splice operations hitting table `p`, in processing order. -/
def opsOf (p : Nat) (outs : List (Block × Option (String × String × String))) :
    List (Nat × List Child) :=
  outs.filterMap (fun bo =>
    match bo.2 with
    | some r => if bo.1.pid = p then some (bo.1.idx, bundleNodes r) else none
    | none => none)

/-- Sequential application of splice operations (each index interpreted
against the current list, as in the source's processing loop). -/
def applyOps : List (Nat × List Child) → List Child → List Child
  | [], l => l
  | op :: ops, l => applyOps ops (listSplice l op.1 op.2)

/-- The indexed code entries of a children table, indices starting at
`i0`. -/
def idxCodesFrom (i0 : Nat) : List Child → List (Nat × Option String × String × Option String)
  | [] => []
  | Child.codeChild l v m :: cs => (i0, l, v, m) :: idxCodesFrom (i0 + 1) cs
  | _ :: cs => idxCodesFrom (i0 + 1) cs

/-- The blocks of parent `p`, projected to index and code data. -/
def blocksProj (p : Nat) (bs : List Block) :
    List (Nat × Option String × String × Option String) :=
  (bs.filter (fun b => b.pid == p)).map (fun b => (b.idx, b.lang, b.value, b.meta))

/-! ## Splice ordering: descending splices equal an in-place expansion -/

theorem listSplice_append_left (l1 l2 r : List Child) (i : Nat) (h : i < l1.length) :
    listSplice (l1 ++ l2) i r = listSplice l1 i r ++ l2 := by
  unfold listSplice
  rw [List.take_append_eq_append_take, List.drop_append_eq_append_drop]
  have h1 : i - l1.length = 0 := by omega
  have h2 : i + 1 - l1.length = 0 := by omega
  rw [h1, h2]
  simp [List.append_assoc]

theorem listSplice_at_append (l1 l2 r : List Child) (c : Child) :
    listSplice (l1 ++ c :: l2) l1.length r = l1 ++ r ++ l2 := by
  unfold listSplice
  rw [List.take_left]
  have hshape : l1 ++ c :: l2 = (l1 ++ [c]) ++ l2 := by simp
  rw [hshape, List.drop_left' (by simp)]

theorem le_length_listSplice (l r : List Child) (i : Nat) (h : i < l.length) :
    i ≤ (listSplice l i r).length := by
  unfold listSplice
  rw [List.length_append, List.length_append, List.length_take,
    Nat.min_eq_left (Nat.le_of_lt h)]
  omega

theorem applyOps_append (ops : List (Nat × List Child)) (l1 l2 : List Child)
    (hdesc : List.Pairwise (fun a b => b.1 < a.1) ops)
    (hlt : ∀ op ∈ ops, op.1 < l1.length) :
    applyOps ops (l1 ++ l2) = applyOps ops l1 ++ l2 := by
  induction ops generalizing l1 with
  | nil => rfl
  | cons op rest ih =>
    have h1 : op.1 < l1.length := hlt op (by simp)
    have hd := List.pairwise_cons.mp hdesc
    show applyOps rest (listSplice (l1 ++ l2) op.1 op.2) = applyOps rest (listSplice l1 op.1 op.2) ++ l2
    rw [listSplice_append_left l1 l2 op.2 op.1 h1]
    refine ih (listSplice l1 op.1 op.2) hd.2 ?_
    intro op' hop'
    exact Nat.lt_of_lt_of_le (hd.1 op' hop') (le_length_listSplice l1 op.2 op.1 h1)

theorem flatIdx_append (g : Nat → Child → List Child) (l1 : List Child) :
    ∀ (l2 : List Child) (i : Nat),
    flatIdx g i (l1 ++ l2) = flatIdx g i l1 ++ flatIdx g (i + l1.length) l2 := by
  induction l1 with
  | nil => intro l2 i; simp [flatIdx]
  | cons c cs ih =>
    intro l2 i
    show g i c ++ flatIdx g (i + 1) (cs ++ l2) =
      (g i c ++ flatIdx g (i + 1) cs) ++ flatIdx g (i + (c :: cs).length) l2
    rw [ih]
    have harith : i + 1 + cs.length = i + (c :: cs).length := by
      simp only [List.length_cons]
      omega
    rw [← harith, List.append_assoc]

theorem applyOps_eq_flatIdx : ∀ (cs : List Child) (ops : List (Nat × List Child))
    (g : Nat → Child → List Child),
    List.Pairwise (fun a b => b.1 < a.1) ops →
    (∀ op ∈ ops, op.1 < cs.length) →
    (∀ i ch, cs.get? i = some ch →
      g i ch = match ops.find? (fun op => op.1 == i) with
        | some op => op.2
        | none => [ch]) →
    applyOps ops cs = flatIdx g 0 cs := by
  intro cs
  induction cs using List.reverseRecOn with
  | nil =>
    intro ops g hdesc hlt hg
    cases ops with
    | nil => rfl
    | cons op rest =>
      have := hlt op (by simp)
      simp at this
  | append_singleton l c ih =>
    intro ops g hdesc hlt hg
    have hflat : flatIdx g 0 (l ++ [c]) = flatIdx g 0 l ++ g l.length c := by
      rw [flatIdx_append]
      simp [flatIdx]
    have hgetc : (l ++ [c]).get? l.length = some c := by
      rw [List.get?_append_right (Nat.le_refl _)]
      simp
    cases ops with
    | nil =>
      have hl := ih [] g List.Pairwise.nil (fun op h => absurd h (List.not_mem_nil op)) ?hg0
      case hg0 =>
        intro i ch hi
        obtain ⟨hb, -⟩ := List.get?_eq_some.mp hi
        have := hg i ch (by rw [List.get?_append hb]; exact hi)
        simpa using this
      have hgc : g l.length c = [c] := by
        have := hg l.length c hgetc
        simpa using this
      show l ++ [c] = flatIdx g 0 (l ++ [c])
      rw [hflat, hgc]
      have : applyOps [] l = l := rfl
      rw [this] at hl
      rw [← hl]
    | cons op rest =>
      have hd := List.pairwise_cons.mp hdesc
      by_cases hop : op.1 = l.length
      · have hsp : listSplice (l ++ [c]) op.1 op.2 = l ++ op.2 := by
          rw [hop]
          have := listSplice_at_append l [] op.2 c
          simpa using this
        have hconf : applyOps rest (l ++ op.2) = applyOps rest l ++ op.2 := by
          refine applyOps_append rest l op.2 hd.2 ?_
          intro op' hop'
          have := hd.1 op' hop'
          omega
        have hrest := ih rest g hd.2 ?hlt2 ?hg2
        case hlt2 =>
          intro op' hop'
          have := hd.1 op' hop'
          omega
        case hg2 =>
          intro i ch hi
          obtain ⟨hb, -⟩ := List.get?_eq_some.mp hi
          have hgi := hg i ch (by rw [List.get?_append hb]; exact hi)
          rw [hgi]
          have hne : (op.1 == i) = false := by
            simp only [beq_eq_false_iff_ne]
            omega
          rw [List.find?_cons_of_neg _ (by rw [hne]; exact Bool.false_ne_true)]
        have hgc : g l.length c = op.2 := by
          have hgi := hg l.length c hgetc
          rw [hgi]
          rw [List.find?_cons_of_pos _ (by simp [hop])]
        show applyOps rest (listSplice (l ++ [c]) op.1 op.2) = flatIdx g 0 (l ++ [c])
        rw [hsp, hconf, hrest, hflat, hgc]
      · have hop1 : op.1 < l.length := by
          have := hlt op (by simp)
          simp only [List.length_append, List.length_cons, List.length_nil] at this
          omega
        have hall : ∀ op' ∈ op :: rest, op'.1 < l.length := by
          intro op' hop'
          rcases List.mem_cons.mp hop' with heq | hmem
          · rw [heq]; exact hop1
          · have := hd.1 op' hmem
            omega
        have hconf := applyOps_append (op :: rest) l [c] hdesc hall
        have hrest := ih (op :: rest) g hdesc hall ?hg3
        case hg3 =>
          intro i ch hi
          obtain ⟨hb, -⟩ := List.get?_eq_some.mp hi
          exact hg i ch (by rw [List.get?_append hb]; exact hi)
        have hgc : g l.length c = [c] := by
          have hgi := hg l.length c hgetc
          rw [hgi]
          have hfind : List.find? (fun op' => op'.1 == l.length) (op :: rest) = none := by
            rw [List.find?_eq_none]
            intro x hx
            have := hall x hx
            simp only [beq_iff_eq]
            omega
          rw [hfind]
        rw [hconf, hrest, hflat, hgc]

/-! ## From the processing loop to per-table splice sequences -/

theorem processBlocks_tables (col : Collaborators) (cfg : PluginCfg) :
    ∀ (bs : List Block) (c : Nat) (tabs : Nat → List Child) (p : Nat),
    (processBlocks col cfg bs c tabs).tables p =
      applyOps (opsOf p (outcomesList col cfg bs c)) (tabs p) := by
  intro bs
  induction bs with
  | nil => intro c tabs p; rfl
  | cons b bs ih =>
    intro c tabs p
    cases hr : renderBlock col cfg b (c + 1) with
    | some r =>
      have hstep : (processBlocks col cfg (b :: bs) c tabs).tables p =
          (processBlocks col cfg bs (c + 1)
            (fun q => if q = b.pid then listSplice (tabs b.pid) b.idx (bundleNodes r)
              else tabs q)).tables p := by
        simp only [processBlocks, hr]
      have hout : outcomesList col cfg (b :: bs) c =
          (b, some r) :: outcomesList col cfg bs (c + 1) := by
        simp only [outcomesList, hr]
      rw [hstep, hout, ih]
      by_cases hp : b.pid = p
      · subst hp
        have hops : opsOf b.pid ((b, some r) :: outcomesList col cfg bs (c + 1)) =
            (b.idx, bundleNodes r) :: opsOf b.pid (outcomesList col cfg bs (c + 1)) := by
          simp [opsOf, List.filterMap_cons]
        rw [hops]
        show applyOps _ (if b.pid = b.pid then _ else _) = _
        rw [if_pos rfl]
        rfl
      · have hops : opsOf p ((b, some r) :: outcomesList col cfg bs (c + 1)) =
            opsOf p (outcomesList col cfg bs (c + 1)) := by
          simp [opsOf, List.filterMap_cons, hp]
        rw [hops]
        show applyOps _ (if p = b.pid then _ else _) = _
        rw [if_neg (fun h => hp h.symm)]
    | none =>
      have hstep : (processBlocks col cfg (b :: bs) c tabs).tables p =
          (processBlocks col cfg bs (c + 1) tabs).tables p := by
        simp only [processBlocks, hr]
      have hout : outcomesList col cfg (b :: bs) c =
          (b, (none : Option (String × String × String))) ::
            outcomesList col cfg bs (c + 1) := by
        simp only [outcomesList, hr]
      have hops : opsOf p ((b, (none : Option (String × String × String))) ::
          outcomesList col cfg bs (c + 1)) = opsOf p (outcomesList col cfg bs (c + 1)) := by
        simp only [opsOf, List.filterMap_cons]
      rw [hstep, hout, hops, ih]

/-! ## The descending stable sort -/

theorem insertDesc_perm (b : Block) : ∀ l : List Block, (insertDesc b l).Perm (b :: l) := by
  intro l
  induction l with
  | nil => exact List.Perm.refl _
  | cons x xs ih =>
    unfold insertDesc
    by_cases h : b.idx ≤ x.idx
    · rw [if_pos h]
      exact (ih.cons x).trans (List.Perm.swap b x xs)
    · rw [if_neg h]

theorem sortDesc_perm_aux : ∀ (bs : List Block) (acc : List Block),
    (bs.foldl (fun acc b => insertDesc b acc) acc).Perm (acc ++ bs) := by
  intro bs
  induction bs with
  | nil => intro acc; simp
  | cons b bs ih =>
    intro acc
    have h1 := ih (insertDesc b acc)
    have h2 : (insertDesc b acc ++ bs).Perm (acc ++ b :: bs) := by
      have hstep : (insertDesc b acc).Perm (b :: acc) := insertDesc_perm b acc
      exact (hstep.append_right bs).trans List.perm_middle.symm
    rw [List.foldl_cons]
    exact h1.trans h2

theorem sortDesc_perm (bs : List Block) : (sortDescBlocks bs).Perm bs := by
  have := sortDesc_perm_aux bs []
  simpa [sortDescBlocks] using this

theorem insertDesc_sorted (b : Block) : ∀ l : List Block,
    List.Pairwise (fun a b2 => b2.idx ≤ a.idx) l →
    List.Pairwise (fun a b2 => b2.idx ≤ a.idx) (insertDesc b l) := by
  intro l
  induction l with
  | nil => intro _; simp [insertDesc]
  | cons x xs ih =>
    intro hp
    have hx := List.pairwise_cons.mp hp
    unfold insertDesc
    by_cases h : b.idx ≤ x.idx
    · rw [if_pos h]
      refine List.pairwise_cons.mpr ⟨?_, ih hx.2⟩
      intro y hy
      rcases List.mem_cons.mp ((insertDesc_perm b xs).mem_iff.mp hy) with heq | hmem
      · rw [heq]; exact h
      · exact hx.1 y hmem
    · rw [if_neg h]
      refine List.pairwise_cons.mpr ⟨?_, hp⟩
      intro y hy
      rcases List.mem_cons.mp hy with heq | hmem
      · rw [heq]; omega
      · have := hx.1 y hmem
        omega

theorem sortDesc_sorted_aux : ∀ (bs : List Block) (acc : List Block),
    List.Pairwise (fun a b2 => b2.idx ≤ a.idx) acc →
    List.Pairwise (fun a b2 => b2.idx ≤ a.idx) (bs.foldl (fun acc b => insertDesc b acc) acc) := by
  intro bs
  induction bs with
  | nil => intro acc h; exact h
  | cons b bs ih =>
    intro acc h
    rw [List.foldl_cons]
    exact ih (insertDesc b acc) (insertDesc_sorted b acc h)

theorem sortDesc_sorted (bs : List Block) :
    List.Pairwise (fun a b2 => b2.idx ≤ a.idx) (sortDescBlocks bs) :=
  sortDesc_sorted_aux bs [] List.Pairwise.nil

/-! ## Lemmas about table lookups and indexed code entries -/

theorem lookupTab_of_none : ∀ (ts : List (Nat × List Child)) (p : Nat),
    (∀ t ∈ ts, t.1 ≠ p) → lookupTab ts p = [] := by
  intro ts
  induction ts with
  | nil => intro p _; rfl
  | cons t ts ih =>
    intro p h
    have hne : t.1 ≠ p := h t (by simp)
    cases t with
    | mk q cs =>
      simp only [lookupTab, if_neg hne]
      exact ih p (fun t2 ht2 => h t2 (by simp [ht2]))

theorem lookupTab_append_right : ∀ (t1 t2 : List (Nat × List Child)) (p : Nat),
    (∀ t ∈ t1, t.1 ≠ p) → lookupTab (t1 ++ t2) p = lookupTab t2 p := by
  intro t1
  induction t1 with
  | nil => intro t2 p _; rfl
  | cons t ts ih =>
    intro t2 p h
    have hne : t.1 ≠ p := h t (by simp)
    cases t with
    | mk q cs =>
      simp only [List.cons_append, lookupTab, if_neg hne]
      exact ih t2 p (fun t2m ht2 => h t2m (by simp [ht2]))

theorem lookupTab_append_left : ∀ (t1 t2 : List (Nat × List Child)) (p : Nat),
    (∀ t ∈ t2, t.1 ≠ p) → lookupTab (t1 ++ t2) p = lookupTab t1 p := by
  intro t1
  induction t1 with
  | nil => intro t2 p h; exact lookupTab_of_none t2 p h
  | cons t ts ih =>
    intro t2 p h
    cases t with
    | mk q cs =>
      by_cases hq : q = p
      · simp only [List.cons_append, lookupTab, if_pos hq]
      · simp only [List.cons_append, lookupTab, if_neg hq]
        exact ih t2 p h

theorem blocksProj_nil (p : Nat) : blocksProj p [] = [] := rfl

theorem blocksProj_append (p : Nat) (l1 l2 : List Block) :
    blocksProj p (l1 ++ l2) = blocksProj p l1 ++ blocksProj p l2 := by
  unfold blocksProj
  rw [List.filter_append, List.map_append]

theorem blocksProj_of_none (p : Nat) (bs : List Block) (h : ∀ b ∈ bs, b.pid ≠ p) :
    blocksProj p bs = [] := by
  unfold blocksProj
  have : bs.filter (fun b => b.pid == p) = [] := by
    rw [List.filter_eq_nil]
    intro b hb
    simp only [beq_iff_eq]
    exact h b hb
  rw [this]
  rfl

theorem idxCodesFrom_bound : ∀ (cs : List Child) (i0 : Nat) (e : Nat × Option String × String × Option String),
    e ∈ idxCodesFrom i0 cs → i0 ≤ e.1 ∧ e.1 < i0 + cs.length := by
  intro cs
  induction cs with
  | nil => intro i0 e h; cases h
  | cons ch cs ih =>
    intro i0 e h
    cases ch with
    | codeChild l v m =>
      rcases List.mem_cons.mp h with heq | hmem
      · rw [heq]
        refine ⟨Nat.le_refl _, ?_⟩
        simp only [List.length_cons]
        omega
      · have := ih (i0 + 1) e hmem
        simp only [List.length_cons]
        omega
    | htmlChild v =>
      have := ih (i0 + 1) e h
      simp only [List.length_cons]
      omega
    | refChild q t =>
      have := ih (i0 + 1) e h
      simp only [List.length_cons]
      omega
    | otherChild t =>
      have := ih (i0 + 1) e h
      simp only [List.length_cons]
      omega

theorem idxCodesFrom_increasing : ∀ (cs : List Child) (i0 : Nat),
    List.Pairwise (fun a b => a.1 < b.1) (idxCodesFrom i0 cs) := by
  intro cs
  induction cs with
  | nil => intro i0; exact List.Pairwise.nil
  | cons ch cs ih =>
    intro i0
    cases ch with
    | codeChild l v m =>
      refine List.pairwise_cons.mpr ⟨?_, ih (i0 + 1)⟩
      intro e he
      have := idxCodesFrom_bound cs (i0 + 1) e he
      simp only
      omega
    | htmlChild v => exact ih (i0 + 1)
    | refChild q t => exact ih (i0 + 1)
    | otherChild t => exact ih (i0 + 1)

theorem idxCodesFrom_mem_get? : ∀ (cs : List Child) (i0 i : Nat) (l : Option String)
    (v : String) (m : Option String),
    ((i, l, v, m) ∈ idxCodesFrom i0 cs) ↔
      ∃ j, i = i0 + j ∧ cs.get? j = some (Child.codeChild l v m) := by
  intro cs
  induction cs with
  | nil =>
    intro i0 i l v m
    constructor
    · intro h; cases h
    · rintro ⟨j, -, hj⟩; cases hj
  | cons ch cs ih =>
    intro i0 i l v m
    cases ch with
    | codeChild l2 v2 m2 =>
      simp only [idxCodesFrom, List.mem_cons, ih (i0 + 1)]
      constructor
      · rintro (heq | ⟨j, hj1, hj2⟩)
        · injection heq with h1 h2
          injection h2 with h2a h2b
          injection h2b with h2b h2c
          refine ⟨0, by omega, by simp [h2a, h2b, h2c]⟩
        · exact ⟨j + 1, by omega, by simpa using hj2⟩
      · rintro ⟨j, hj1, hj2⟩
        cases j with
        | zero =>
          left
          simp only [List.get?_cons_zero, Option.some.injEq] at hj2
          injection hj2 with e1 e2 e3
          simp [hj1, e1, e2, e3]
        | succ k =>
          right
          refine ⟨k, by omega, by simpa using hj2⟩
    | htmlChild v2 =>
      simp only [idxCodesFrom, ih (i0 + 1)]
      constructor
      · rintro ⟨j, hj1, hj2⟩
        exact ⟨j + 1, by omega, by simpa using hj2⟩
      · rintro ⟨j, hj1, hj2⟩
        cases j with
        | zero => simp at hj2
        | succ k => exact ⟨k, by omega, by simpa using hj2⟩
    | refChild q t =>
      simp only [idxCodesFrom, ih (i0 + 1)]
      constructor
      · rintro ⟨j, hj1, hj2⟩
        exact ⟨j + 1, by omega, by simpa using hj2⟩
      · rintro ⟨j, hj1, hj2⟩
        cases j with
        | zero => simp at hj2
        | succ k => exact ⟨k, by omega, by simpa using hj2⟩
    | otherChild t =>
      simp only [idxCodesFrom, ih (i0 + 1)]
      constructor
      · rintro ⟨j, hj1, hj2⟩
        exact ⟨j + 1, by omega, by simpa using hj2⟩
      · rintro ⟨j, hj1, hj2⟩
        cases j with
        | zero => simp at hj2
        | succ k => exact ⟨k, by omega, by simpa using hj2⟩

theorem idxCodesFrom_code (i0 : Nat) (l : Option String) (v : String) (m : Option String)
    (cs : List Child) :
    idxCodesFrom i0 (Child.codeChild l v m :: cs) = (i0, l, v, m) :: idxCodesFrom (i0 + 1) cs :=
  rfl

theorem idxCodesFrom_html (i0 : Nat) (v : String) (cs : List Child) :
    idxCodesFrom i0 (Child.htmlChild v :: cs) = idxCodesFrom (i0 + 1) cs := rfl

theorem idxCodesFrom_ref (i0 q : Nat) (t : String) (cs : List Child) :
    idxCodesFrom i0 (Child.refChild q t :: cs) = idxCodesFrom (i0 + 1) cs := rfl

theorem idxCodesFrom_other (i0 : Nat) (t : String) (cs : List Child) :
    idxCodesFrom i0 (Child.otherChild t :: cs) = idxCodesFrom (i0 + 1) cs := rfl

theorem hdBlocks_mem (n : MNode) (pPid i : Nat) :
    ∀ b ∈ hdBlocks n pPid i, b.pid = pPid ∧ b.idx = i := by
  cases n with
  | code l v m =>
    intro b hb
    rcases List.mem_singleton.mp hb with rfl
    exact ⟨rfl, rfl⟩
  | html v => intro b hb; cases hb
  | cont t cs => intro b hb; cases hb
  | leaf t => intro b hb; cases hb

/-! ## The walk is well formed: per parent, the collected blocks are
exactly the indexed code entries of that parent's table -/

mutual
theorem walkN_facts (n : MNode) (f : Nat) :
    f ≤ (walkN n f).fresh ∧
    (∀ t ∈ (walkN n f).tabs, f ≤ t.1 ∧ t.1 < (walkN n f).fresh) ∧
    (∀ b ∈ (walkN n f).blks, f ≤ b.pid ∧ b.pid < (walkN n f).fresh) ∧
    (∀ p, f ≤ p → p < (walkN n f).fresh →
      blocksProj p (walkN n f).blks = idxCodesFrom 0 (lookupTab (walkN n f).tabs p)) := by
  cases n with
  | code l v m =>
    refine ⟨Nat.le_refl f, ?_, ?_, ?_⟩
    · intro t ht; cases ht
    · intro b hb; cases hb
    · intro p h1 h2
      exact absurd (Nat.lt_of_le_of_lt h1 h2) (Nat.lt_irrefl f)
  | html v =>
    refine ⟨Nat.le_refl f, ?_, ?_, ?_⟩
    · intro t ht; cases ht
    · intro b hb; cases hb
    · intro p h1 h2
      exact absurd (Nat.lt_of_le_of_lt h1 h2) (Nat.lt_irrefl f)
  | leaf t =>
    refine ⟨Nat.le_refl f, ?_, ?_, ?_⟩
    · intro t2 ht; cases ht
    · intro b hb; cases hb
    · intro p h1 h2
      exact absurd (Nat.lt_of_le_of_lt h1 h2) (Nat.lt_irrefl f)
  | cont t cs =>
    obtain ⟨hF1, hF2, hF3, hF4, hF5⟩ := walkF_facts cs f 0 (f + 1) (Nat.lt_succ_self f)
    have efresh : (walkN (MNode.cont t cs) f).fresh = (walkF cs f 0 (f + 1)).fresh := rfl
    have etabs : (walkN (MNode.cont t cs) f).tabs =
      (f, (walkF cs f 0 (f + 1)).reps) :: (walkF cs f 0 (f + 1)).tabs := rfl
    have eblks : (walkN (MNode.cont t cs) f).blks = (walkF cs f 0 (f + 1)).blks := rfl
    rw [efresh, etabs, eblks]
    refine ⟨?_, ?_, ?_, ?_⟩
    · omega
    · intro t2 ht2
      rcases List.mem_cons.mp ht2 with heq | hmem
      · subst heq
        refine ⟨Nat.le_refl _, ?_⟩
        show f < (walkF cs f 0 (f + 1)).fresh
        omega
      · have := hF2 t2 hmem
        omega
    · intro b hb
      rcases hF3 b hb with heq | hrange
      · constructor
        · rw [heq]
        · rw [heq]; omega
      · omega
    · intro p hp1 hp2
      by_cases hpf : p = f
      · subst hpf
        have hlook : lookupTab ((p, (walkF cs p 0 (p + 1)).reps) ::
            (walkF cs p 0 (p + 1)).tabs) p = (walkF cs p 0 (p + 1)).reps := by
          simp [lookupTab]
        rw [hlook]
        exact hF4
      · have hfp : f ≠ p := fun h => hpf h.symm
        have hlook : lookupTab ((f, (walkF cs f 0 (f + 1)).reps) ::
            (walkF cs f 0 (f + 1)).tabs) p = lookupTab (walkF cs f 0 (f + 1)).tabs p := by
          simp only [lookupTab]
          rw [if_neg hfp]
        rw [hlook]
        exact hF5 p (by omega) hp2

theorem walkF_facts (cs : MForest) (pPid i0 f : Nat) (hp : pPid < f) :
    f ≤ (walkF cs pPid i0 f).fresh ∧
    (∀ t ∈ (walkF cs pPid i0 f).tabs, f ≤ t.1 ∧ t.1 < (walkF cs pPid i0 f).fresh) ∧
    (∀ b ∈ (walkF cs pPid i0 f).blks,
      b.pid = pPid ∨ (f ≤ b.pid ∧ b.pid < (walkF cs pPid i0 f).fresh)) ∧
    blocksProj pPid (walkF cs pPid i0 f).blks = idxCodesFrom i0 (walkF cs pPid i0 f).reps ∧
    (∀ p, f ≤ p → p < (walkF cs pPid i0 f).fresh →
      blocksProj p (walkF cs pPid i0 f).blks =
        idxCodesFrom 0 (lookupTab (walkF cs pPid i0 f).tabs p)) := by
  cases cs with
  | nil =>
    refine ⟨Nat.le_refl f, ?_, ?_, rfl, ?_⟩
    · intro t ht; cases ht
    · intro b hb; cases hb
    · intro p h1 h2
      exact absurd (Nat.lt_of_le_of_lt h1 h2) (Nat.lt_irrefl f)
  | cons n ns =>
    obtain ⟨hN1, hN2, hN3, hN4⟩ := walkN_facts n f
    obtain ⟨hF1, hF2, hF3, hF4, hF5⟩ :=
      walkF_facts ns pPid (i0 + 1) (walkN n f).fresh (Nat.lt_of_lt_of_le hp hN1)
    have efresh : (walkF (MForest.cons n ns) pPid i0 f).fresh =
      (walkF ns pPid (i0 + 1) (walkN n f).fresh).fresh := rfl
    have etabs : (walkF (MForest.cons n ns) pPid i0 f).tabs =
      (walkN n f).tabs ++ (walkF ns pPid (i0 + 1) (walkN n f).fresh).tabs := rfl
    have eblks : (walkF (MForest.cons n ns) pPid i0 f).blks =
      hdBlocks n pPid i0 ++ (walkN n f).blks ++
        (walkF ns pPid (i0 + 1) (walkN n f).fresh).blks := rfl
    have ereps : (walkF (MForest.cons n ns) pPid i0 f).reps =
      (walkN n f).rep :: (walkF ns pPid (i0 + 1) (walkN n f).fresh).reps := rfl
    rw [efresh, etabs, eblks, ereps]
    refine ⟨?_, ?_, ?_, ?_, ?_⟩
    · omega
    · intro t2 ht2
      rcases List.mem_append.mp ht2 with h1 | h2
      · have := hN2 t2 h1; omega
      · have := hF2 t2 h2; omega
    · intro b hb
      rcases List.mem_append.mp hb with h12 | h3
      · rcases List.mem_append.mp h12 with h1 | h2
        · exact Or.inl (hdBlocks_mem n pPid i0 b h1).1
        · have := hN3 b h2; right; omega
      · rcases hF3 b h3 with heq | hrange
        · exact Or.inl heq
        · right; omega
    · rw [blocksProj_append, blocksProj_append]
      have hw1 : blocksProj pPid (walkN n f).blks = [] :=
        blocksProj_of_none _ _ (fun b hb => by have := hN3 b hb; omega)
      rw [hw1, hF4]
      cases n with
      | code l v m =>
        rw [show hdBlocks (MNode.code l v m) pPid i0 = [⟨pPid, i0, l, v, m⟩] from rfl,
            show (walkN (MNode.code l v m) f).rep = Child.codeChild l v m from rfl,
            idxCodesFrom_code]
        simp [blocksProj]
      | html v =>
        rw [show hdBlocks (MNode.html v) pPid i0 = [] from rfl,
            show (walkN (MNode.html v) f).rep = Child.htmlChild v from rfl,
            blocksProj_nil, idxCodesFrom_html]
        simp
      | leaf t =>
        rw [show hdBlocks (MNode.leaf t) pPid i0 = [] from rfl,
            show (walkN (MNode.leaf t) f).rep = Child.otherChild t from rfl,
            blocksProj_nil, idxCodesFrom_other]
        simp
      | cont t cs2 =>
        rw [show hdBlocks (MNode.cont t cs2) pPid i0 = [] from rfl,
            show (walkN (MNode.cont t cs2) f).rep = Child.refChild f t from rfl,
            blocksProj_nil, idxCodesFrom_ref]
        simp
    · intro p hp1 hp2
      rw [blocksProj_append, blocksProj_append]
      have hhd0 : blocksProj p (hdBlocks n pPid i0) = [] :=
        blocksProj_of_none _ _ (fun b hb => by
          have := (hdBlocks_mem n pPid i0 b hb).1
          omega)
      rw [hhd0]
      by_cases hcase : p < (walkN n f).fresh
      · have hw2 : blocksProj p (walkF ns pPid (i0 + 1) (walkN n f).fresh).blks = [] :=
          blocksProj_of_none _ _ (fun b hb => by
            rcases hF3 b hb with heq | hrange
            · omega
            · omega)
        have hlook : lookupTab ((walkN n f).tabs ++
            (walkF ns pPid (i0 + 1) (walkN n f).fresh).tabs) p =
            lookupTab (walkN n f).tabs p := by
          refine lookupTab_append_left _ _ _ ?_
          intro t2 ht2
          have := hF2 t2 ht2
          omega
        rw [hw2, hlook, hN4 p hp1 hcase]
        simp
      · have hw1 : blocksProj p (walkN n f).blks = [] :=
          blocksProj_of_none _ _ (fun b hb => by have := hN3 b hb; omega)
        have hlook : lookupTab ((walkN n f).tabs ++
            (walkF ns pPid (i0 + 1) (walkN n f).fresh).tabs) p =
            lookupTab (walkF ns pPid (i0 + 1) (walkN n f).fresh).tabs p := by
          refine lookupTab_append_right _ _ _ ?_
          intro t2 ht2
          have := hN2 t2 ht2
          omega
        rw [hw1, hlook, hF5 p (by omega) hp2]
        simp
end

/-- Well-formedness of the whole document walk: for every pid, the
collected blocks of that parent are exactly the indexed code entries of
that parent's children table. -/
theorem docWalk_proj (root : MForest) :
    ∀ p, blocksProj p (docBlocks root) = idxCodesFrom 0 (docTables root p) := by
  intro p
  obtain ⟨hF1, hF2, hF3, hF4, hF5⟩ := walkF_facts root 0 0 1 Nat.zero_lt_one
  by_cases hp : p = 0
  · subst hp
    unfold docTables docBlocks docWalk
    rw [if_pos rfl]
    exact hF4
  · unfold docTables docBlocks docWalk
    rw [if_neg hp]
    by_cases hrange : 1 ≤ p ∧ p < (walkF root 0 0 1).fresh
    · exact hF5 p hrange.1 hrange.2
    · have h1 : blocksProj p (walkF root 0 0 1).blks = [] :=
        blocksProj_of_none _ _ (fun b hb => by
          rcases hF3 b hb with heq | hr
          · omega
          · omega)
      have h2 : lookupTab (walkF root 0 0 1).tabs p = [] :=
        lookupTab_of_none _ _ (fun t ht => by
          have := hF2 t ht
          omega)
      rw [h1, h2]
      rfl

/-! ## Helpers for the main table theorem -/

theorem find?_of_pairwise_unique {α : Type} (q : α → Bool) :
    ∀ l : List α, List.Pairwise (fun a b => ¬(q a = true ∧ q b = true)) l →
    ∀ x ∈ l, q x = true → l.find? q = some x := by
  intro l
  induction l with
  | nil => intro _ x hx; cases hx
  | cons a l ih =>
    intro hpw x hx hqx
    have hd := List.pairwise_cons.mp hpw
    rcases List.mem_cons.mp hx with heq | hmem
    · subst heq
      exact List.find?_cons_of_pos _ hqx
    · cases hqa : q a with
      | true => exact absurd ⟨hqa, hqx⟩ (hd.1 x hmem)
      | false =>
        rw [List.find?_cons_of_neg _ (by rw [hqa]; exact Bool.false_ne_true)]
        exact ih hd.2 x hmem hqx

theorem eq_of_pairwise_unique {α : Type} (q : α → Bool) :
    ∀ l : List α, List.Pairwise (fun a b => ¬(q a = true ∧ q b = true)) l →
    ∀ a ∈ l, ∀ b ∈ l, q a = true → q b = true → a = b := by
  intro l
  induction l with
  | nil => intro _ a ha; cases ha
  | cons c l ih =>
    intro hpw a ha b hb hqa hqb
    have hd := List.pairwise_cons.mp hpw
    rcases List.mem_cons.mp ha with rfl | hma
    · rcases List.mem_cons.mp hb with rfl | hmb
      · rfl
      · exact absurd ⟨hqa, hqb⟩ (hd.1 b hmb)
    · rcases List.mem_cons.mp hb with rfl | hmb
      · exact absurd ⟨hqb, hqa⟩ (hd.1 a hma)
      · exact ih hd.2 a hma b hmb hqa hqb

theorem mem_opsOf {p : Nat} {outs : List (Block × Option (String × String × String))}
    {op : Nat × List Child} :
    op ∈ opsOf p outs ↔
      ∃ bo ∈ outs, ∃ r, bo.2 = some r ∧ bo.1.pid = p ∧ op = (bo.1.idx, bundleNodes r) := by
  unfold opsOf
  rw [List.mem_filterMap]
  constructor
  · rintro ⟨bo, hbo, hf⟩
    cases h2 : bo.2 with
    | none => rw [h2] at hf; cases hf
    | some r =>
      rw [h2] at hf
      dsimp only at hf
      by_cases hpid : bo.1.pid = p
      · rw [if_pos hpid] at hf
        injection hf with hf
        exact ⟨bo, hbo, r, h2, hpid, hf.symm⟩
      · rw [if_neg hpid] at hf; cases hf
  · rintro ⟨bo, hbo, r, h2, hpid, rfl⟩
    refine ⟨bo, hbo, ?_⟩
    rw [h2]
    dsimp only
    rw [if_pos hpid]

theorem outcomesList_fst (col : Collaborators) (cfg : PluginCfg) :
    ∀ (bs : List Block) (c : Nat), (outcomesList col cfg bs c).map Prod.fst = bs := by
  intro bs
  induction bs with
  | nil => intro c; rfl
  | cons b bs ih =>
    intro c
    simp only [outcomesList, List.map_cons, ih]

theorem pairwise_of_filter {α : Type} (R : α → α → Prop) (q : α → Bool) :
    ∀ l : List α, List.Pairwise R (l.filter q) →
    List.Pairwise (fun a b => q a = true → q b = true → R a b) l := by
  intro l
  induction l with
  | nil => intro _; exact List.Pairwise.nil
  | cons a l ih =>
    intro hpw
    cases hqa : q a with
    | true =>
      rw [List.filter_cons_of_pos hqa] at hpw
      have hd := List.pairwise_cons.mp hpw
      refine List.pairwise_cons.mpr ⟨?_, ih hd.2⟩
      intro b hb _ hqb
      exact hd.1 b (List.mem_filter.mpr ⟨hb, hqb⟩)
    | false =>
      rw [List.filter_cons_of_neg (by rw [hqa]; exact Bool.false_ne_true)] at hpw
      refine List.pairwise_cons.mpr ⟨?_, ih hpw⟩
      intro b _ hqa2 _
      rw [hqa] at hqa2
      cases hqa2

theorem opsOf_pairwise (p : Nat) :
    ∀ outs : List (Block × Option (String × String × String)),
    List.Pairwise (fun bo1 bo2 => bo1.1.pid = p → bo2.1.pid = p → bo2.1.idx < bo1.1.idx) outs →
    List.Pairwise (fun o1 o2 => o2.1 < o1.1) (opsOf p outs) := by
  intro outs
  induction outs with
  | nil => intro _; exact List.Pairwise.nil
  | cons bo outs ih =>
    intro hpw
    have hd := List.pairwise_cons.mp hpw
    cases h2 : bo.2 with
    | none =>
      have he : opsOf p (bo :: outs) = opsOf p outs := by
        unfold opsOf
        rw [List.filterMap_cons, h2]
      rw [he]
      exact ih hd.2
    | some r =>
      by_cases hpid : bo.1.pid = p
      · have he : opsOf p (bo :: outs) =
            (bo.1.idx, bundleNodes r) :: opsOf p outs := by
          unfold opsOf
          rw [List.filterMap_cons, h2]
          dsimp only
          rw [if_pos hpid]
        rw [he]
        refine List.pairwise_cons.mpr ⟨?_, ih hd.2⟩
        intro op hop
        obtain ⟨bo2, hbo2, r2, h22, hpid2, rfl⟩ := mem_opsOf.mp hop
        exact hd.1 bo2 hbo2 hpid hpid2
      · have he : opsOf p (bo :: outs) = opsOf p outs := by
          unfold opsOf
          rw [List.filterMap_cons, h2]
          dsimp only
          rw [if_neg hpid]
        rw [he]
        exact ih hd.2

theorem expandChild_code (outs : List (Block × Option (String × String × String)))
    (p i : Nat) (l : Option String) (v : String) (m : Option String) :
    expandChild outs p i (Child.codeChild l v m) =
      (match outs.find? (fun bo => bo.1.pid == p && bo.1.idx == i) with
       | some bo =>
         (match bo.2 with
          | some r => bundleNodes r
          | none => [Child.codeChild l v m])
       | none => [Child.codeChild l v m]) := rfl

/-- The central theorem about the batch rewrite: for every document tree
and every parent, the transformed children table equals the in-place
expansion of the original table (each code child replaced by its own
bundle when its render succeeded, left untouched when it failed, all
other children untouched and in order). -/
theorem transform_tables_eq (col : Collaborators) (cfg : PluginCfg) (flag : Bool)
    (st : ProcState) (root : MForest) (p : Nat) :
    (transformCall col cfg flag st root).tables p =
      expandTable (outcomesList col cfg (sortDescBlocks (docBlocks root)) st.blockCounter) p
        (docTables root p) := by
  have e1 : (transformCall col cfg flag st root).tables p =
      (processBlocks col cfg (sortDescBlocks (docBlocks root)) st.blockCounter
        (docTables root)).tables p := rfl
  rw [e1, processBlocks_tables]
  set blocks := docBlocks root with hblocks_def
  set cs := docTables root p with hcs_def
  set sorted := sortDescBlocks blocks with hsorted_def
  set outs := outcomesList col cfg sorted st.blockCounter with houts_def
  have hW1 : blocksProj p blocks = idxCodesFrom 0 cs := docWalk_proj root p
  have hfst : outs.map Prod.fst = sorted := outcomesList_fst col cfg sorted st.blockCounter
  have hperm : sorted.Perm blocks := sortDesc_perm blocks
  have hsortedPW : List.Pairwise (fun a b2 => b2.idx ≤ a.idx) sorted := sortDesc_sorted blocks
  have hblock_get : ∀ b : Block, b ∈ blocks → b.pid = p →
      cs.get? b.idx = some (Child.codeChild b.lang b.value b.meta) := by
    intro b hb hpid
    have hmem : (b.idx, b.lang, b.value, b.meta) ∈ blocksProj p blocks := by
      unfold blocksProj
      exact List.mem_map.mpr ⟨b, List.mem_filter.mpr ⟨hb, by simp [hpid]⟩, rfl⟩
    rw [hW1] at hmem
    obtain ⟨j, hj1, hj2⟩ := (idxCodesFrom_mem_get? cs 0 b.idx b.lang b.value b.meta).mp hmem
    have hij : b.idx = j := by omega
    rw [hij]
    exact hj2
  have hprojInc : List.Pairwise (fun a b2 => a.1 < b2.1) (blocksProj p blocks) := by
    rw [hW1]
    exact idxCodesFrom_increasing cs 0
  have hfiltInc : List.Pairwise (fun b1 b2 => b1.idx < b2.idx)
      (blocks.filter (fun b => b.pid == p)) := by
    unfold blocksProj at hprojInc
    have hmapped := List.pairwise_map.mp hprojInc
    exact hmapped.imp (fun h => h)
  have hfiltNe : List.Pairwise (fun b1 b2 => b1.idx ≠ b2.idx)
      (blocks.filter (fun b => b.pid == p)) :=
    hfiltInc.imp (fun h => Nat.ne_of_lt h)
  have hfiltNe_sorted : List.Pairwise (fun b1 b2 => b1.idx ≠ b2.idx)
      (sorted.filter (fun b => b.pid == p)) := by
    have hpf : (sorted.filter (fun b => b.pid == p)).Perm
        (blocks.filter (fun b => b.pid == p)) := hperm.filter _
    exact (hpf.pairwise_iff (fun h => Ne.symm h)).mpr hfiltNe
  have hfiltDesc : List.Pairwise (fun a b2 => b2.idx ≤ a.idx)
      (sorted.filter (fun b => b.pid == p)) :=
    List.Pairwise.sublist (List.filter_sublist sorted) hsortedPW
  have hfiltStrict : List.Pairwise (fun a b2 => b2.idx < a.idx)
      (sorted.filter (fun b => b.pid == p)) :=
    (hfiltDesc.and hfiltNe_sorted).imp (fun h => by omega)
  have hQsorted : List.Pairwise
      (fun b1 b2 => b1.pid = p → b2.pid = p → b2.idx < b1.idx) sorted := by
    have hpf := pairwise_of_filter (fun a b2 => b2.idx < a.idx) (fun b => b.pid == p)
      sorted hfiltStrict
    exact hpf.imp (fun h h1 h2 => h (by simp [h1]) (by simp [h2]))
  have hQouts : List.Pairwise
      (fun bo1 bo2 => bo1.1.pid = p → bo2.1.pid = p → bo2.1.idx < bo1.1.idx) outs := by
    have h2 := hQsorted
    rw [← hfst] at h2
    exact List.pairwise_map.mp h2
  have houts_block : ∀ bo ∈ outs, bo.1 ∈ blocks := by
    intro bo hbo
    have hm : bo.1 ∈ outs.map Prod.fst := List.mem_map_of_mem Prod.fst hbo
    rw [hfst] at hm
    exact hperm.mem_iff.mp hm
  unfold expandTable
  refine applyOps_eq_flatIdx cs (opsOf p outs) (expandChild outs p) ?_ ?_ ?_
  · exact opsOf_pairwise p outs hQouts
  · intro op hop
    obtain ⟨bo, hbo, r, h2, hpid, rfl⟩ := mem_opsOf.mp hop
    have hget := hblock_get bo.1 (houts_block bo hbo) hpid
    obtain ⟨hlt2, -⟩ := List.get?_eq_some.mp hget
    exact hlt2
  · intro i ch hget
    have hfind_none_of_noblock : (∀ (l2 : Option String) (v2 : String) (m2 : Option String),
        cs.get? i ≠ some (Child.codeChild l2 v2 m2)) →
        (opsOf p outs).find? (fun op => op.1 == i) = none := by
      intro hno
      rw [List.find?_eq_none]
      intro op hop hq
      obtain ⟨bo, hbo, r, h2, hpid, rfl⟩ := mem_opsOf.mp hop
      have hidx : bo.1.idx = i := by simpa using hq
      have hgot := hblock_get bo.1 (houts_block bo hbo) hpid
      rw [hidx] at hgot
      exact hno bo.1.lang bo.1.value bo.1.meta hgot
    cases ch with
    | htmlChild v =>
      have hfind := hfind_none_of_noblock (by intro l2 v2 m2 hc; rw [hget] at hc; cases hc)
      rw [hfind]
      rfl
    | refChild q t =>
      have hfind := hfind_none_of_noblock (by intro l2 v2 m2 hc; rw [hget] at hc; cases hc)
      rw [hfind]
      rfl
    | otherChild t =>
      have hfind := hfind_none_of_noblock (by intro l2 v2 m2 hc; rw [hget] at hc; cases hc)
      rw [hfind]
      rfl
    | codeChild l v m =>
      have hkeyPW : List.Pairwise (fun bo1 bo2 =>
          ¬((bo1.1.pid == p && bo1.1.idx == i) = true ∧
            (bo2.1.pid == p && bo2.1.idx == i) = true)) outs := by
        refine hQouts.imp ?_
        intro bo1 bo2 h hk
        obtain ⟨hk1, hk2⟩ := hk
        simp only [Bool.and_eq_true, beq_iff_eq] at hk1 hk2
        have := h hk1.1 hk2.1
        omega
      rw [expandChild_code]
      cases hfo : outs.find? (fun bo => bo.1.pid == p && bo.1.idx == i) with
      | some bo =>
        have hbo_mem : bo ∈ outs := List.mem_of_find?_eq_some hfo
        have hq := List.find?_some hfo
        simp only [Bool.and_eq_true, beq_iff_eq] at hq
        cases h2 : bo.2 with
        | some r =>
          have hop_mem : (bo.1.idx, bundleNodes r) ∈ opsOf p outs :=
            mem_opsOf.mpr ⟨bo, hbo_mem, r, h2, hq.1, rfl⟩
          have hops_pw : List.Pairwise (fun o1 o2 =>
              ¬((o1.1 == i) = true ∧ (o2.1 == i) = true)) (opsOf p outs) := by
            refine (opsOf_pairwise p outs hQouts).imp ?_
            intro o1 o2 h hk
            obtain ⟨hk1, hk2⟩ := hk
            simp only [beq_iff_eq] at hk1 hk2
            omega
          have hfind := find?_of_pairwise_unique (fun op => op.1 == i) (opsOf p outs)
            hops_pw (bo.1.idx, bundleNodes r) hop_mem (by simp [hq.2])
          rw [hfind]
          dsimp only
          rw [h2]
        | none =>
          have hfind : (opsOf p outs).find? (fun op => op.1 == i) = none := by
            rw [List.find?_eq_none]
            intro op hop hqop
            obtain ⟨bo2, hbo2, r2, h22, hpid2, rfl⟩ := mem_opsOf.mp hop
            have hidx2 : bo2.1.idx = i := by simpa using hqop
            have heqbo : bo2 = bo := eq_of_pairwise_unique _ outs hkeyPW bo2 hbo2 bo hbo_mem
              (by simp [hpid2, hidx2]) (by simp [hq.1, hq.2])
            rw [heqbo, h2] at h22
            cases h22
          rw [hfind]
          dsimp only
          rw [h2]
      | none =>
        have hfind : (opsOf p outs).find? (fun op => op.1 == i) = none := by
          rw [List.find?_eq_none]
          intro op hop hqop
          obtain ⟨bo, hbo, r, h2, hpid, rfl⟩ := mem_opsOf.mp hop
          have hidx : bo.1.idx = i := by simpa using hqop
          have hres := find?_of_pairwise_unique (fun bo2 => bo2.1.pid == p && bo2.1.idx == i)
            outs hkeyPW bo hbo (by simp [hpid, hidx])
          rw [hfo] at hres
          cases hres
        rw [hfind]

/-! ## Event-trace lemmas -/

theorem loadPhase_cached (col : Collaborators) (loaded : List String) (l : String)
    (ls : List String) (h : l ∈ loaded) :
    loadPhase col loaded (l :: ls) = loadPhase col loaded ls := by
  simp [loadPhase, h]

theorem loadPhase_ok (col : Collaborators) (loaded : List String) (l : String)
    (ls : List String) (h1 : l ∉ loaded) (h2 : l ∈ col.bundled)
    (h3 : col.loadOk l = true) :
    loadPhase col loaded (l :: ls) =
      ((loadPhase col (loaded ++ [l]) ls).1,
       Ev.loadCall l :: (loadPhase col (loaded ++ [l]) ls).2) := by
  simp [loadPhase, h1, h2, h3]

theorem loadPhase_fail (col : Collaborators) (loaded : List String) (l : String)
    (ls : List String) (h1 : l ∉ loaded) (h2 : l ∈ col.bundled)
    (h3 : col.loadOk l = false) :
    loadPhase col loaded (l :: ls) =
      ((loadPhase col loaded ls).1,
       Ev.loadCall l :: Ev.loadWarn l :: (loadPhase col loaded ls).2) := by
  simp [loadPhase, h1, h2, h3]

theorem loadPhase_skip (col : Collaborators) (loaded : List String) (l : String)
    (ls : List String) (h1 : l ∉ loaded) (h2 : l ∉ col.bundled) :
    loadPhase col loaded (l :: ls) = loadPhase col loaded ls := by
  simp [loadPhase, h1, h2]

theorem loadPhase_evs_shape (col : Collaborators) :
    ∀ (langs loaded : List String) (e : Ev), e ∈ (loadPhase col loaded langs).2 →
    (∃ l, e = Ev.loadCall l) ∨ (∃ l, e = Ev.loadWarn l) := by
  intro langs
  induction langs with
  | nil => intro loaded e he; cases he
  | cons l ls ih =>
    intro loaded e he
    by_cases h1 : l ∈ loaded
    · rw [loadPhase_cached col loaded l ls h1] at he
      exact ih loaded e he
    · by_cases h2 : l ∈ col.bundled
      · cases h3 : col.loadOk l with
        | true =>
          rw [loadPhase_ok col loaded l ls h1 h2 h3] at he
          rcases List.mem_cons.mp he with rfl | hm
          · exact Or.inl ⟨l, rfl⟩
          · exact ih (loaded ++ [l]) e hm
        | false =>
          rw [loadPhase_fail col loaded l ls h1 h2 h3] at he
          rcases List.mem_cons.mp he with rfl | hm
          · exact Or.inl ⟨l, rfl⟩
          · rcases List.mem_cons.mp hm with rfl | hm2
            · exact Or.inr ⟨l, rfl⟩
            · exact ih loaded e hm2
      · rw [loadPhase_skip col loaded l ls h1 h2] at he
        exact ih loaded e he

theorem processBlocks_evs_shape (col : Collaborators) (cfg : PluginCfg) :
    ∀ (bs : List Block) (c : Nat) (tabs : Nat → List Child) (e : Ev),
    e ∈ (processBlocks col cfg bs c tabs).evs →
    (∃ l id, e = Ev.renderCall l id) ∨ (∃ l, e = Ev.renderError l) := by
  intro bs
  induction bs with
  | nil => intro c tabs e he; cases he
  | cons b bs ih =>
    intro c tabs e he
    cases hr : renderBlock col cfg b (c + 1) with
    | some r =>
      simp only [processBlocks, hr] at he
      rcases List.mem_cons.mp he with rfl | hm
      · exact Or.inl ⟨_, _, rfl⟩
      · exact ih (c + 1) _ e hm
    | none =>
      simp only [processBlocks, hr] at he
      rcases List.mem_cons.mp he with rfl | hm
      · exact Or.inl ⟨_, _, rfl⟩
      · rcases List.mem_cons.mp hm with rfl | hm2
        · exact Or.inr ⟨_, rfl⟩
        · exact ih (c + 1) _ e hm2

theorem processBlocks_error_mem (col : Collaborators) (cfg : PluginCfg) :
    ∀ (bs : List Block) (c : Nat) (tabs : Nat → List Child) (b : Block),
    (b, (none : Option (String × String × String))) ∈ outcomesList col cfg bs c →
    Ev.renderError (resolveLang b.lang) ∈ (processBlocks col cfg bs c tabs).evs := by
  intro bs
  induction bs with
  | nil => intro c tabs b hm; cases hm
  | cons b2 bs ih =>
    intro c tabs b hm
    rcases List.mem_cons.mp hm with heq | hm2
    · injection heq with e1 e2
      subst e1
      cases hr : renderBlock col cfg b (c + 1) with
      | some r => rw [hr] at e2; cases e2
      | none =>
        simp only [processBlocks, hr]
        exact List.mem_cons_of_mem _ (List.mem_cons_self _ _)
    · cases hr : renderBlock col cfg b2 (c + 1) with
      | some r =>
        simp only [processBlocks, hr]
        exact List.mem_cons_of_mem _ (ih (c + 1) _ b hm2)
      | none =>
        simp only [processBlocks, hr]
        exact List.mem_cons_of_mem _ (List.mem_cons_of_mem _ (ih (c + 1) _ b hm2))

/-! ## Load-phase lemmas -/

theorem dedupeFrom_nodup : ∀ (l seen : List String),
    (dedupeFrom seen l).Nodup ∧ ∀ x ∈ dedupeFrom seen l, x ∉ seen := by
  intro l
  induction l with
  | nil => intro seen; exact ⟨List.nodup_nil, fun x hx => absurd hx (List.not_mem_nil x)⟩
  | cons a l ih =>
    intro seen
    by_cases ha : a ∈ seen
    · rw [dedupeFrom, if_pos ha]
      exact ih seen
    · rw [dedupeFrom, if_neg ha]
      obtain ⟨hnd, hnm⟩ := ih (a :: seen)
      refine ⟨List.nodup_cons.mpr ⟨?_, hnd⟩, ?_⟩
      · intro hmem
        exact hnm a hmem (List.mem_cons_self a seen)
      · intro x hx hxs
        rcases List.mem_cons.mp hx with rfl | hm
        · exact ha hxs
        · exact hnm x hm (List.mem_cons_of_mem a hxs)

theorem detectLangs_nodup (bs : List Block) : (detectLangs bs).Nodup :=
  (dedupeFrom_nodup _ []).1

theorem loadPhase_count (col : Collaborators) :
    ∀ (langs loaded : List String) (lang : String), langs.Nodup →
    (loadPhase col loaded langs).2.count (Ev.loadCall lang) =
      (if lang ∈ langs ∧ lang ∉ loaded ∧ lang ∈ col.bundled then 1 else 0) := by
  intro langs
  induction langs with
  | nil =>
    intro loaded lang _
    simp [loadPhase]
  | cons l ls ih =>
    intro loaded lang hnd
    obtain ⟨hlnotin, hndls⟩ := List.nodup_cons.mp hnd
    have hrhs : ∀ loaded2 : List String, (lang ∈ loaded ↔ lang ∈ loaded2) → lang ≠ l →
        ((if lang ∈ ls ∧ lang ∉ loaded2 ∧ lang ∈ col.bundled then 1 else 0) : Nat) =
        (if lang ∈ l :: ls ∧ lang ∉ loaded ∧ lang ∈ col.bundled then 1 else 0) := by
      intro loaded2 hiff hne
      by_cases hmem : lang ∈ ls ∧ lang ∉ loaded2 ∧ lang ∈ col.bundled
      · rw [if_pos hmem, if_pos ⟨List.mem_cons_of_mem l hmem.1,
          fun hm => hmem.2.1 (hiff.mp hm), hmem.2.2⟩]
      · rw [if_neg hmem, if_neg (fun h =>
          hmem ⟨(List.mem_cons.mp h.1).resolve_left hne,
            fun hm => h.2.1 (hiff.mpr hm), h.2.2⟩)]
    by_cases h1 : l ∈ loaded
    · rw [loadPhase_cached col loaded l ls h1, ih loaded lang hndls]
      by_cases heq : lang = l
      · subst heq
        rw [if_neg (fun h => hlnotin h.1), if_neg (fun h => h.2.1 h1)]
      · exact hrhs loaded Iff.rfl heq
    · by_cases h2 : l ∈ col.bundled
      · cases h3 : col.loadOk l with
        | true =>
          rw [loadPhase_ok col loaded l ls h1 h2 h3]
          show (Ev.loadCall l ::
            (loadPhase col (loaded ++ [l]) ls).2).count (Ev.loadCall lang) = _
          by_cases heq : lang = l
          · subst heq
            rw [List.count_cons_self, ih (loaded ++ [lang]) lang hndls,
              if_neg (fun h => hlnotin h.1),
              if_pos ⟨List.mem_cons_self lang ls, h1, h2⟩]
          · rw [List.count_cons_of_ne (fun hc => heq (Ev.loadCall.inj hc)),
              ih (loaded ++ [l]) lang hndls]
            exact hrhs (loaded ++ [l])
              ⟨fun hm => List.mem_append_left _ hm,
               fun hm => (List.mem_append.mp hm).resolve_right
                 (fun hm2 => heq (List.mem_singleton.mp hm2))⟩ heq
        | false =>
          rw [loadPhase_fail col loaded l ls h1 h2 h3]
          show (Ev.loadCall l :: Ev.loadWarn l ::
            (loadPhase col loaded ls).2).count (Ev.loadCall lang) = _
          by_cases heq : lang = l
          · subst heq
            rw [List.count_cons_self, List.count_cons_of_ne (fun hc => Ev.noConfusion hc),
              ih loaded lang hndls, if_neg (fun h => hlnotin h.1),
              if_pos ⟨List.mem_cons_self lang ls, h1, h2⟩]
          · rw [List.count_cons_of_ne (fun hc => heq (Ev.loadCall.inj hc)),
              List.count_cons_of_ne (fun hc => Ev.noConfusion hc),
              ih loaded lang hndls]
            exact hrhs loaded Iff.rfl heq
      · rw [loadPhase_skip col loaded l ls h1 h2, ih loaded lang hndls]
        by_cases heq : lang = l
        · subst heq
          rw [if_neg (fun h => hlnotin h.1), if_neg (fun h => h2 h.2.2)]
        · exact hrhs loaded Iff.rfl heq

theorem loadPhase_mono (col : Collaborators) :
    ∀ (langs loaded : List String) (x : String), x ∈ loaded →
    x ∈ (loadPhase col loaded langs).1 := by
  intro langs
  induction langs with
  | nil => intro loaded x hx; exact hx
  | cons l ls ih =>
    intro loaded x hx
    by_cases h1 : l ∈ loaded
    · rw [loadPhase_cached col loaded l ls h1]; exact ih loaded x hx
    · by_cases h2 : l ∈ col.bundled
      · cases h3 : col.loadOk l with
        | true =>
          rw [loadPhase_ok col loaded l ls h1 h2 h3]
          exact ih (loaded ++ [l]) x (List.mem_append_left _ hx)
        | false =>
          rw [loadPhase_fail col loaded l ls h1 h2 h3]
          exact ih loaded x hx
      · rw [loadPhase_skip col loaded l ls h1 h2]; exact ih loaded x hx

theorem loadPhase_adds (col : Collaborators) :
    ∀ (langs loaded : List String) (lang : String), lang ∈ langs → lang ∉ loaded →
    lang ∈ col.bundled → col.loadOk lang = true →
    lang ∈ (loadPhase col loaded langs).1 := by
  intro langs
  induction langs with
  | nil => intro loaded lang hm; cases hm
  | cons l ls ih =>
    intro loaded lang hm hnl hb hok
    by_cases h1 : l ∈ loaded
    · rw [loadPhase_cached col loaded l ls h1]
      rcases List.mem_cons.mp hm with rfl | hm2
      · exact absurd h1 hnl
      · exact ih loaded lang hm2 hnl hb hok
    · by_cases h2 : l ∈ col.bundled
      · cases h3 : col.loadOk l with
        | true =>
          rw [loadPhase_ok col loaded l ls h1 h2 h3]
          rcases List.mem_cons.mp hm with rfl | hm2
          · exact loadPhase_mono col ls (loaded ++ [lang]) lang
              (List.mem_append_right _ (List.mem_singleton.mpr rfl))
          · by_cases heq : lang = l
            · subst heq
              exact loadPhase_mono col ls (loaded ++ [lang]) lang
                (List.mem_append_right _ (List.mem_singleton.mpr rfl))
            · exact ih (loaded ++ [l]) lang hm2 (by
                intro hc
                rcases List.mem_append.mp hc with hc2 | hc2
                · exact hnl hc2
                · exact heq (List.mem_singleton.mp hc2)) hb hok
        | false =>
          rw [loadPhase_fail col loaded l ls h1 h2 h3]
          rcases List.mem_cons.mp hm with rfl | hm2
          · rw [hok] at h3; cases h3
          · exact ih loaded lang hm2 hnl hb hok
      · rw [loadPhase_skip col loaded l ls h1 h2]
        rcases List.mem_cons.mp hm with rfl | hm2
        · exact absurd hb h2
        · exact ih loaded lang hm2 hnl hb hok

/-! ## Block and outcome lookup helpers -/

theorem block_docTables (root : MForest) (b : Block) (hb : b ∈ docBlocks root)
    (p : Nat) (hp : b.pid = p) :
    (docTables root p).get? b.idx = some (Child.codeChild b.lang b.value b.meta) := by
  have hW1 : blocksProj p (docBlocks root) = idxCodesFrom 0 (docTables root p) :=
    docWalk_proj root p
  have hmem : (b.idx, b.lang, b.value, b.meta) ∈ blocksProj p (docBlocks root) := by
    unfold blocksProj
    exact List.mem_map.mpr ⟨b, List.mem_filter.mpr ⟨hb, by simp [hp]⟩, rfl⟩
  rw [hW1] at hmem
  obtain ⟨j, hj1, hj2⟩ := (idxCodesFrom_mem_get? _ 0 b.idx b.lang b.value b.meta).mp hmem
  have hij : b.idx = j := by omega
  rw [hij]
  exact hj2

theorem docTables_code_block (root : MForest) (p i : Nat) (l : Option String)
    (v : String) (m : Option String)
    (hget : (docTables root p).get? i = some (Child.codeChild l v m)) :
    ∃ b : Block, b ∈ docBlocks root ∧ b.pid = p ∧ b.idx = i ∧
      b.lang = l ∧ b.value = v ∧ b.meta = m := by
  have hW1 : blocksProj p (docBlocks root) = idxCodesFrom 0 (docTables root p) :=
    docWalk_proj root p
  have hmem : (i, l, v, m) ∈ idxCodesFrom 0 (docTables root p) :=
    (idxCodesFrom_mem_get? _ 0 i l v m).mpr ⟨i, by omega, hget⟩
  rw [← hW1] at hmem
  unfold blocksProj at hmem
  obtain ⟨b, hbf, hbe⟩ := List.mem_map.mp hmem
  obtain ⟨hbmem, hbp⟩ := List.mem_filter.mp hbf
  injection hbe with h1 h2
  injection h2 with h2a h2b
  injection h2b with h2b h2c
  exact ⟨b, hbmem, by simpa using hbp, h1, h2a, h2b, h2c⟩

theorem outcomes_Q (col : Collaborators) (cfg : PluginCfg) (st : ProcState)
    (root : MForest) (p : Nat) :
    List.Pairwise (fun bo1 bo2 => bo1.1.pid = p → bo2.1.pid = p → bo2.1.idx < bo1.1.idx)
      (outcomesList col cfg (sortDescBlocks (docBlocks root)) st.blockCounter) := by
  set blocks := docBlocks root with hblocks_def
  set sorted := sortDescBlocks blocks with hsorted_def
  have hfst : (outcomesList col cfg sorted st.blockCounter).map Prod.fst = sorted :=
    outcomesList_fst col cfg sorted st.blockCounter
  have hperm : sorted.Perm blocks := sortDesc_perm blocks
  have hsortedPW : List.Pairwise (fun a b2 => b2.idx ≤ a.idx) sorted := sortDesc_sorted blocks
  have hW1 : blocksProj p blocks = idxCodesFrom 0 (docTables root p) := docWalk_proj root p
  have hprojInc : List.Pairwise (fun a b2 => a.1 < b2.1) (blocksProj p blocks) := by
    rw [hW1]
    exact idxCodesFrom_increasing _ 0
  have hfiltInc : List.Pairwise (fun b1 b2 => b1.idx < b2.idx)
      (blocks.filter (fun b => b.pid == p)) := by
    unfold blocksProj at hprojInc
    have hmapped := List.pairwise_map.mp hprojInc
    exact hmapped.imp (fun h => h)
  have hfiltNe : List.Pairwise (fun b1 b2 => b1.idx ≠ b2.idx)
      (blocks.filter (fun b => b.pid == p)) :=
    hfiltInc.imp (fun h => Nat.ne_of_lt h)
  have hfiltNe_sorted : List.Pairwise (fun b1 b2 => b1.idx ≠ b2.idx)
      (sorted.filter (fun b => b.pid == p)) := by
    have hpf : (sorted.filter (fun b => b.pid == p)).Perm
        (blocks.filter (fun b => b.pid == p)) := hperm.filter _
    exact (hpf.pairwise_iff (fun h => Ne.symm h)).mpr hfiltNe
  have hfiltDesc : List.Pairwise (fun a b2 => b2.idx ≤ a.idx)
      (sorted.filter (fun b => b.pid == p)) :=
    List.Pairwise.sublist (List.filter_sublist sorted) hsortedPW
  have hfiltStrict : List.Pairwise (fun a b2 => b2.idx < a.idx)
      (sorted.filter (fun b => b.pid == p)) :=
    (hfiltDesc.and hfiltNe_sorted).imp (fun h => by omega)
  have hQsorted : List.Pairwise
      (fun b1 b2 => b1.pid = p → b2.pid = p → b2.idx < b1.idx) sorted := by
    have hpf := pairwise_of_filter (fun a b2 => b2.idx < a.idx) (fun b => b.pid == p)
      sorted hfiltStrict
    exact hpf.imp (fun h h1 h2 => h (by simp [h1]) (by simp [h2]))
  have h2 := hQsorted
  rw [← hfst] at h2
  exact List.pairwise_map.mp h2

theorem outcomes_key_unique (col : Collaborators) (cfg : PluginCfg) (st : ProcState)
    (root : MForest) (p i : Nat) :
    List.Pairwise (fun bo1 bo2 =>
      ¬((bo1.1.pid == p && bo1.1.idx == i) = true ∧ (bo2.1.pid == p && bo2.1.idx == i) = true))
      (outcomesList col cfg (sortDescBlocks (docBlocks root)) st.blockCounter) := by
  have hQ := outcomes_Q col cfg st root p
  refine hQ.imp ?_
  intro bo1 bo2 h hk
  obtain ⟨hk1, hk2⟩ := hk
  simp only [Bool.and_eq_true, beq_iff_eq] at hk1 hk2
  have h3 := h hk1.1 hk2.1
  omega

theorem outcomes_find_self (col : Collaborators) (cfg : PluginCfg) (st : ProcState)
    (root : MForest) (bo : Block × Option (String × String × String))
    (hbo : bo ∈ outcomesList col cfg (sortDescBlocks (docBlocks root)) st.blockCounter) :
    (outcomesList col cfg (sortDescBlocks (docBlocks root)) st.blockCounter).find?
      (fun bo2 => bo2.1.pid == bo.1.pid && bo2.1.idx == bo.1.idx) = some bo :=
  find?_of_pairwise_unique _ _ (outcomes_key_unique col cfg st root bo.1.pid bo.1.idx)
    bo hbo (by simp)

theorem outcomes_mem_block (col : Collaborators) (cfg : PluginCfg) (st : ProcState)
    (root : MForest) (bo : Block × Option (String × String × String))
    (hbo : bo ∈ outcomesList col cfg (sortDescBlocks (docBlocks root)) st.blockCounter) :
    bo.1 ∈ docBlocks root := by
  have hm : bo.1 ∈ (outcomesList col cfg (sortDescBlocks (docBlocks root))
      st.blockCounter).map Prod.fst := List.mem_map_of_mem Prod.fst hbo
  rw [outcomesList_fst] at hm
  exact (sortDesc_perm _).mem_iff.mp hm

theorem block_outcomes (col : Collaborators) (cfg : PluginCfg) (st : ProcState)
    (root : MForest) (b : Block) (hb : b ∈ docBlocks root) :
    ∃ bo, bo ∈ outcomesList col cfg (sortDescBlocks (docBlocks root)) st.blockCounter ∧
      bo.1 = b := by
  have hm : b ∈ (outcomesList col cfg (sortDescBlocks (docBlocks root))
      st.blockCounter).map Prod.fst := by
    rw [outcomesList_fst]
    exact (sortDesc_perm _).mem_iff.mpr hb
  obtain ⟨bo, hbo, hbe⟩ := List.mem_map.mp hm
  exact ⟨bo, hbo, hbe⟩

theorem expandChild_self (col : Collaborators) (cfg : PluginCfg) (st : ProcState)
    (root : MForest) (bo : Block × Option (String × String × String))
    (hbo : bo ∈ outcomesList col cfg (sortDescBlocks (docBlocks root)) st.blockCounter) :
    expandChild (outcomesList col cfg (sortDescBlocks (docBlocks root)) st.blockCounter)
      bo.1.pid bo.1.idx (Child.codeChild bo.1.lang bo.1.value bo.1.meta) =
      (match bo.2 with
       | some r => bundleNodes r
       | none => [Child.codeChild bo.1.lang bo.1.value bo.1.meta]) := by
  rw [expandChild_code, outcomes_find_self col cfg st root bo hbo]

/-! ## Per-call trace equations -/

theorem transformCall_trace_eq (col : Collaborators) (cfg : PluginCfg) (flag : Bool)
    (st : ProcState) (root : MForest) :
    (transformCall col cfg flag st root).trace =
      (if (cfg.hasLoadLanguages && !flag) = true then [Ev.hookCall] else []) ++
      (loadPhase col st.loadedLanguages (detectLangs (docBlocks root))).2 ++
      (processBlocks col cfg (sortDescBlocks (docBlocks root)) st.blockCounter
        (docTables root)).evs := rfl

theorem transformCall_hook_count (col : Collaborators) (cfg : PluginCfg) (flag : Bool)
    (st : ProcState) (root : MForest) :
    (transformCall col cfg flag st root).trace.count Ev.hookCall =
      (if (cfg.hasLoadLanguages && !flag) = true then 1 else 0) ∧
    (transformCall col cfg flag st root).languagesLoaded =
      (if (cfg.hasLoadLanguages && !flag) = true then true else flag) := by
  have hload : Ev.hookCall ∉
      (loadPhase col st.loadedLanguages (detectLangs (docBlocks root))).2 := by
    intro hm
    rcases loadPhase_evs_shape col _ _ _ hm with ⟨l, hl⟩ | ⟨l, hl⟩ <;> cases hl
  have hproc : Ev.hookCall ∉ (processBlocks col cfg (sortDescBlocks (docBlocks root))
      st.blockCounter (docTables root)).evs := by
    intro hm
    rcases processBlocks_evs_shape col cfg _ _ _ _ hm with ⟨l, id, hl⟩ | ⟨l, hl⟩ <;> cases hl
  have hfl : (transformCall col cfg flag st root).languagesLoaded =
      (if (cfg.hasLoadLanguages && !flag) = true then true else flag) := rfl
  refine ⟨?_, hfl⟩
  rw [transformCall_trace_eq col cfg flag st root, List.count_append, List.count_append,
    List.count_eq_zero.mpr hload, List.count_eq_zero.mpr hproc]
  by_cases hb : (cfg.hasLoadLanguages && !flag) = true
  · rw [if_pos hb, if_pos hb]
    rfl
  · rw [if_neg hb, if_neg hb]
    rfl

theorem runCalls_hook_zero (col : Collaborators) (cfg : PluginCfg) :
    ∀ (trees : List MForest) (st : ProcState),
    ((runCalls col cfg true st trees).2.2.map (fun tr => tr.count Ev.hookCall)).sum = 0 := by
  intro trees
  induction trees with
  | nil => intro st; rfl
  | cons t ts ih =>
    intro st
    have e : (runCalls col cfg true st (t :: ts)).2.2 =
        (transformCall col cfg true st t).trace ::
        (runCalls col cfg (transformCall col cfg true st t).languagesLoaded
          (transformCall col cfg true st t).state ts).2.2 := rfl
    rw [e, List.map_cons, List.sum_cons]
    have hc := transformCall_hook_count col cfg true st t
    have hb : ¬((cfg.hasLoadLanguages && !true) = true) := by simp
    have hflag : (transformCall col cfg true st t).languagesLoaded = true := by
      rw [hc.2, if_neg hb]
    rw [hc.1, if_neg hb, hflag, ih _]

/-! ## Concrete documents and collaborators, for the closed instances -/

/-- A well-behaved collaborator set: two bundled languages, loading
always succeeds, rendering always succeeds. -/
def exCol : Collaborators :=
  { bundled := ["js", "py"],
    loadOk := fun _ => true,
    render := fun v o => some (v, o.lang, o.theme) }

def exCfg : PluginCfg :=
  { theme := "dark", hasLoadLanguages := false, globalLineNumbers := none }

def exCfgHook : PluginCfg :=
  { theme := "dark", hasLoadLanguages := true, globalLineNumbers := none }

/-- A root with two code fences (indices 0 and 2) around a paragraph. -/
def exTree : MForest :=
  MForest.cons (MNode.code (some "js") "let x = 1" none)
    (MForest.cons (MNode.leaf "paragraph")
      (MForest.cons (MNode.code (some "py") "print(1)" none) MForest.nil))

/-- A collaborator set whose render collaborator throws on the body
"BAD" and succeeds elsewhere. -/
def exColFail : Collaborators :=
  { bundled := ["js", "py"],
    loadOk := fun _ => true,
    render := fun v o => if v = "BAD" then none else some (v, o.lang, o.theme) }

/-- Two code fences; the second one (index 2) will fail to render under
`exColFail`. -/
def exTreeBad : MForest :=
  MForest.cons (MNode.code (some "js") "let x = 1" none)
    (MForest.cons (MNode.leaf "paragraph")
      (MForest.cons (MNode.code (some "py") "BAD" none) MForest.nil))

/-- A collaborator set whose grammar loading always fails. -/
def exColNoLoad : Collaborators :=
  { bundled := ["foo"],
    loadOk := fun _ => false,
    render := fun v o => some (v, o.lang, o.theme) }

/-- A root with a single code fence in language "foo". -/
def exTreeFoo : MForest :=
  MForest.cons (MNode.code (some "foo") "x" none) MForest.nil

/-! ## The transform claims -/

/-- C1: batch-rewrite ordering correctness.  For every tree (in
particular one with N ≥ 2 code blocks) on which every render succeeds,
the transform leaves every parent's children table equal to the
in-place expansion of the original table; every code child is replaced
by exactly its own three-node bundle (markup, style, script) at its
recorded position, and every non-code child stays itself — no block's
rendered content is merged with or displaced into another block's
bundle. -/
theorem claim_C1_batch_rewrite (col : Collaborators) (cfg : PluginCfg) (flag : Bool)
    (st : ProcState) (root : MForest)
    (hN : 2 ≤ (docBlocks root).length)
    (hok : ∀ bo ∈ outcomesList col cfg (sortDescBlocks (docBlocks root)) st.blockCounter,
      bo.2.isSome = true) :
    (∀ p, (transformCall col cfg flag st root).tables p =
      expandTable (outcomesList col cfg (sortDescBlocks (docBlocks root)) st.blockCounter) p
        (docTables root p)) ∧
    (∀ p i l v m, (docTables root p).get? i = some (Child.codeChild l v m) →
      ∃ r, expandChild (outcomesList col cfg (sortDescBlocks (docBlocks root))
        st.blockCounter) p i (Child.codeChild l v m) = bundleNodes r) ∧
    (∀ p i ch, (docTables root p).get? i = some ch →
      (∀ l v m, ch ≠ Child.codeChild l v m) →
      expandChild (outcomesList col cfg (sortDescBlocks (docBlocks root)) st.blockCounter)
        p i ch = [ch]) := by
  refine ⟨fun p => transform_tables_eq col cfg flag st root p, ?_, ?_⟩
  · intro p i l v m hget
    obtain ⟨b, hbmem, hbp, hbi, hbl, hbv, hbm⟩ := docTables_code_block root p i l v m hget
    obtain ⟨bo, hbo, hboe⟩ := block_outcomes col cfg st root b hbmem
    obtain ⟨r, hr⟩ := Option.isSome_iff_exists.mp (hok bo hbo)
    refine ⟨r, ?_⟩
    have hself := expandChild_self col cfg st root bo hbo
    rw [hboe, hbp, hbi, hbl, hbv, hbm, hr] at hself
    exact hself
  · intro p i ch _ hnc
    cases ch with
    | codeChild l v m => exact absurd rfl (hnc l v m)
    | htmlChild v => rfl
    | refChild q t => rfl
    | otherChild t => rfl

/-- C1 — closed instance: the two-block document `exTree` with the
always-succeeding collaborators satisfies the hypotheses, and its root
table is rewritten to the in-place expansion. -/
theorem claim_C1_witness :
    2 ≤ (docBlocks exTree).length ∧
    (transformCall exCol exCfg false ⟨[], 0⟩ exTree).tables 0 =
      expandTable (outcomesList exCol exCfg (sortDescBlocks (docBlocks exTree)) 0) 0
        (docTables exTree 0) :=
  ⟨by decide,
   (claim_C1_batch_rewrite exCol exCfg false ⟨[], 0⟩ exTree (by decide) (by decide)).1 0⟩

/-- C6: failure isolation and per-block atomicity.  If the render
collaborator fails for exactly one outcome (`boF`) and succeeds for all
others, every table still equals the in-place expansion; the failing
block's code child expands to itself (the original fence node stays,
unmodified, at its relative position, with no partial bundle), every
other block's code child expands to its own three-node bundle, and the
failure is logged with the block's resolved language identifier. -/
theorem claim_C6_failure_isolation (col : Collaborators) (cfg : PluginCfg) (flag : Bool)
    (st : ProcState) (root : MForest)
    (boF : Block × Option (String × String × String))
    (hmem : boF ∈ outcomesList col cfg (sortDescBlocks (docBlocks root)) st.blockCounter)
    (hfail : boF.2 = none)
    (hothers : ∀ bo ∈ outcomesList col cfg (sortDescBlocks (docBlocks root)) st.blockCounter,
      bo ≠ boF → bo.2.isSome = true) :
    (∀ p, (transformCall col cfg flag st root).tables p =
      expandTable (outcomesList col cfg (sortDescBlocks (docBlocks root)) st.blockCounter) p
        (docTables root p)) ∧
    expandChild (outcomesList col cfg (sortDescBlocks (docBlocks root)) st.blockCounter)
      boF.1.pid boF.1.idx (Child.codeChild boF.1.lang boF.1.value boF.1.meta) =
      [Child.codeChild boF.1.lang boF.1.value boF.1.meta] ∧
    (∀ bo ∈ outcomesList col cfg (sortDescBlocks (docBlocks root)) st.blockCounter,
      bo ≠ boF → ∃ r, bo.2 = some r ∧
      expandChild (outcomesList col cfg (sortDescBlocks (docBlocks root)) st.blockCounter)
        bo.1.pid bo.1.idx (Child.codeChild bo.1.lang bo.1.value bo.1.meta) = bundleNodes r) ∧
    Ev.renderError (resolveLang boF.1.lang) ∈ (transformCall col cfg flag st root).trace := by
  refine ⟨fun p => transform_tables_eq col cfg flag st root p, ?_, ?_, ?_⟩
  · have hself := expandChild_self col cfg st root boF hmem
    rw [hfail] at hself
    exact hself
  · intro bo hbo hne
    obtain ⟨r, hr⟩ := Option.isSome_iff_exists.mp (hothers bo hbo hne)
    refine ⟨r, hr, ?_⟩
    have hself := expandChild_self col cfg st root bo hbo
    rw [hr] at hself
    exact hself
  · have hmemN : (boF.1, (none : Option (String × String × String))) ∈
        outcomesList col cfg (sortDescBlocks (docBlocks root)) st.blockCounter := by
      rw [← hfail]
      exact hmem
    have herr := processBlocks_error_mem col cfg (sortDescBlocks (docBlocks root))
      st.blockCounter (docTables root) boF.1 hmemN
    rw [transformCall_trace_eq col cfg flag st root]
    exact List.mem_append_right _ herr

/-- C6 — closed instance: under `exColFail` the second block of
`exTreeBad` (pid 0, index 2, language "py", body "BAD") fails; it is an
outcome of the run and the failure is logged with its language. -/
theorem claim_C6_witness :
    ((⟨0, 2, some "py", "BAD", none⟩, none) : Block × Option (String × String × String)) ∈
      outcomesList exColFail exCfg (sortDescBlocks (docBlocks exTreeBad)) 0 ∧
    Ev.renderError (resolveLang (some "py")) ∈
      (transformCall exColFail exCfg false ⟨[], 0⟩ exTreeBad).trace :=
  ⟨by decide,
   (claim_C6_failure_isolation exColFail exCfg false ⟨[], 0⟩ exTreeBad
     (⟨0, 2, some "py", "BAD", none⟩, none) (by decide) rfl (by decide)).2.2.2⟩

/-- C4 — counterexample.  The claim states that every transform call
invokes the supplied hook exactly once.  The guard `languagesLoaded` is
per plugin instance, not per call: the first call of an instance runs
the hook once, but a second call of the same instance (receiving the
updated guard) runs it zero times. -/
theorem claim_C4_counterexample :
    (transformCall exCol exCfgHook false ⟨[], 0⟩ exTree).trace.count Ev.hookCall = 1 ∧
    (transformCall exCol exCfgHook
        (transformCall exCol exCfgHook false ⟨[], 0⟩ exTree).languagesLoaded
        (transformCall exCol exCfgHook false ⟨[], 0⟩ exTree).state exTree).trace.count
      Ev.hookCall = 0 := by
  exact ⟨by decide, by decide⟩

/-- C4 — amended.  When a hook is supplied and the instance guard is
still unset, the call invokes the hook exactly once, as its very first
event, and sets the guard; when no hook is supplied or the guard is
already set, the call invokes it zero times and leaves the guard as it
was.  Consequently, across any nonempty sequence of documents
transformed by one fresh plugin instance, the hook runs exactly once in
total (on the first call), independent of block counts. -/
theorem claim_C4_amended (col : Collaborators) (cfg : PluginCfg) (flag : Bool)
    (st : ProcState) (root : MForest) :
    (cfg.hasLoadLanguages = true → flag = false →
      (transformCall col cfg flag st root).trace.count Ev.hookCall = 1 ∧
      (transformCall col cfg flag st root).trace.head? = some Ev.hookCall ∧
      (transformCall col cfg flag st root).languagesLoaded = true) ∧
    (cfg.hasLoadLanguages = false ∨ flag = true →
      (transformCall col cfg flag st root).trace.count Ev.hookCall = 0 ∧
      (transformCall col cfg flag st root).languagesLoaded = flag) ∧
    (cfg.hasLoadLanguages = true → ∀ (t : MForest) (ts : List MForest),
      ((runCalls col cfg false st (t :: ts)).2.2.map
        (fun tr => tr.count Ev.hookCall)).sum = 1) := by
  have hcount := transformCall_hook_count col cfg flag st root
  refine ⟨?_, ?_, ?_⟩
  · intro h1 h2
    have hb : (cfg.hasLoadLanguages && !flag) = true := by rw [h1, h2]; rfl
    refine ⟨by rw [hcount.1, if_pos hb], ?_, by rw [hcount.2, if_pos hb]⟩
    rw [transformCall_trace_eq col cfg flag st root, if_pos hb]
    rfl
  · intro h
    have hb : ¬((cfg.hasLoadLanguages && !flag) = true) := by
      rcases h with h | h
      · rw [h]; simp
      · rw [h]; simp
    exact ⟨by rw [hcount.1, if_neg hb], by rw [hcount.2, if_neg hb]⟩
  · intro h1 t ts
    have e : (runCalls col cfg false st (t :: ts)).2.2 =
        (transformCall col cfg false st t).trace ::
        (runCalls col cfg (transformCall col cfg false st t).languagesLoaded
          (transformCall col cfg false st t).state ts).2.2 := rfl
    rw [e, List.map_cons, List.sum_cons]
    have hfirst := transformCall_hook_count col cfg false st t
    have hb : (cfg.hasLoadLanguages && !false) = true := by rw [h1]; rfl
    have hflag : (transformCall col cfg false st t).languagesLoaded = true := by
      rw [hfirst.2, if_pos hb]
    rw [hfirst.1, if_pos hb, hflag, runCalls_hook_zero col cfg ts _]

/-- C4 — closed instance: with a hook supplied and the guard unset, the
first call of `exCfgHook` on `exTree` runs the hook exactly once. -/
theorem claim_C4_witness :
    exCfgHook.hasLoadLanguages = true ∧
    (transformCall exCol exCfgHook false ⟨[], 0⟩ exTree).trace.count Ev.hookCall = 1 :=
  ⟨rfl, ((claim_C4_amended exCol exCfgHook false ⟨[], 0⟩ exTree).1 rfl rfl).1⟩

/-- C5 — counterexample.  The claim states the grammar-load call
happens at most once per process lifetime per identifier.  A failed
load is not cached (the catch branch only warns), so a second document
referencing the same language triggers a second load call: each of the
two calls below performs one load of "foo". -/
theorem claim_C5_counterexample :
    (transformCall exColNoLoad exCfg false ⟨[], 0⟩ exTreeFoo).trace.count
      (Ev.loadCall "foo") = 1 ∧
    (transformCall exColNoLoad exCfg
        (transformCall exColNoLoad exCfg false ⟨[], 0⟩ exTreeFoo).languagesLoaded
        (transformCall exColNoLoad exCfg false ⟨[], 0⟩ exTreeFoo).state exTreeFoo).trace.count
      (Ev.loadCall "foo") = 1 := by
  exact ⟨by decide, by decide⟩

/-- C5 — amended.  Within one call, a language detected in the document
is load-called exactly once when it is uncached and bundled (so K ≥ 2
blocks of one language still give one load call) and zero times
otherwise — in particular zero times when already cached; the cache
only grows (an entry is never removed), and a **successful** load is
cached, so successfully loaded languages are never load-called again;
all load events precede all render events.  What does not hold is the
per-process-lifetime bound: a failed load is not cached and may be
retried on a later document. -/
theorem claim_C5_amended (col : Collaborators) (cfg : PluginCfg) (flag : Bool)
    (st : ProcState) (root : MForest) :
    (∀ lang : String, (transformCall col cfg flag st root).trace.count (Ev.loadCall lang) =
      (if lang ∈ detectLangs (docBlocks root) ∧ lang ∉ st.loadedLanguages ∧
          lang ∈ col.bundled then 1 else 0)) ∧
    (∀ lang ∈ st.loadedLanguages,
      lang ∈ (transformCall col cfg flag st root).state.loadedLanguages) ∧
    (∀ lang : String, lang ∈ detectLangs (docBlocks root) → lang ∉ st.loadedLanguages →
      lang ∈ col.bundled → col.loadOk lang = true →
      lang ∈ (transformCall col cfg flag st root).state.loadedLanguages) ∧
    (∀ lang ∈ st.loadedLanguages,
      (transformCall col cfg flag st root).trace.count (Ev.loadCall lang) = 0) ∧
    (∃ t1 t2, (transformCall col cfg flag st root).trace = t1 ++ t2 ∧
      (∀ lang : String, Ev.loadCall lang ∉ t2) ∧
      (∀ lang id, Ev.renderCall lang id ∉ t1)) := by
  have hndet : (detectLangs (docBlocks root)).Nodup := detectLangs_nodup _
  have hcnt : ∀ lang : String,
      (transformCall col cfg flag st root).trace.count (Ev.loadCall lang) =
      (if lang ∈ detectLangs (docBlocks root) ∧ lang ∉ st.loadedLanguages ∧
          lang ∈ col.bundled then 1 else 0) := by
    intro lang
    rw [transformCall_trace_eq col cfg flag st root, List.count_append, List.count_append]
    have hhook : (if (cfg.hasLoadLanguages && !flag) = true then [Ev.hookCall]
        else ([] : List Ev)).count (Ev.loadCall lang) = 0 := by
      by_cases hb : (cfg.hasLoadLanguages && !flag) = true
      · rw [if_pos hb]; rfl
      · rw [if_neg hb]; rfl
    have hproc : (processBlocks col cfg (sortDescBlocks (docBlocks root)) st.blockCounter
        (docTables root)).evs.count (Ev.loadCall lang) = 0 := by
      rw [List.count_eq_zero]
      intro hm
      rcases processBlocks_evs_shape col cfg _ _ _ _ hm with ⟨l, id, hl⟩ | ⟨l, hl⟩ <;> cases hl
    rw [hhook, hproc, loadPhase_count col (detectLangs (docBlocks root))
      st.loadedLanguages lang hndet, Nat.zero_add, Nat.add_zero]
  refine ⟨hcnt, ?_, ?_, ?_, ?_⟩
  · intro lang hm
    exact loadPhase_mono col (detectLangs (docBlocks root)) st.loadedLanguages lang hm
  · intro lang h1 h2 h3 h4
    exact loadPhase_adds col (detectLangs (docBlocks root)) st.loadedLanguages lang h1 h2 h3 h4
  · intro lang hm
    rw [hcnt lang, if_neg (fun h => h.2.1 hm)]
  · refine ⟨(if (cfg.hasLoadLanguages && !flag) = true then [Ev.hookCall] else []) ++
      (loadPhase col st.loadedLanguages (detectLangs (docBlocks root))).2,
      (processBlocks col cfg (sortDescBlocks (docBlocks root)) st.blockCounter
        (docTables root)).evs, transformCall_trace_eq col cfg flag st root, ?_, ?_⟩
    · intro lang hm
      rcases processBlocks_evs_shape col cfg _ _ _ _ hm with ⟨l, id, hl⟩ | ⟨l, hl⟩ <;> cases hl
    · intro lang id hm
      rcases List.mem_append.mp hm with hm2 | hm2
      · by_cases hb : (cfg.hasLoadLanguages && !flag) = true
        · rw [if_pos hb] at hm2
          rcases List.mem_cons.mp hm2 with h | h
          · cases h
          · cases h
        · rw [if_neg hb] at hm2
          cases hm2
      · rcases loadPhase_evs_shape col _ _ _ hm2 with ⟨l, hl⟩ | ⟨l, hl⟩ <;> cases hl

/-- C5 — closed instance: a language already in the cache before the
call is load-called zero times during the call. -/
theorem claim_C5_witness :
    "js" ∈ (["js"] : List String) ∧
    (transformCall exCol exCfg false ⟨["js"], 0⟩ exTree).trace.count (Ev.loadCall "js") = 0 :=
  ⟨by decide, (claim_C5_amended exCol exCfg false ⟨["js"], 0⟩ exTree).2.2.2.1 "js" (by decide)⟩

end RemarkShiki
